import Mathlib

/-!
Verification of the `simple_src` sample-rate conversion library.

The streaming converters (`src/linear.rs`, `src/sinc.rs`) are embedded
shallowly over an arbitrary linear ordered field `K` with a floor function:
Rust `f64` arithmetic is idealised as exact field arithmetic, `usize`/`u32`
values are `Nat` (with the single `wrapping_sub`/`wrapping_add` spot in
`Converter::interpolate` modelled modulo `2 ^ 64`), and the caller-supplied
input iterator is a `List K` that a call may consume a prefix of.
Instantiating `K := ℚ` makes every streaming definition executable, which the
concrete runs below use; the filter-design layer (`kaiser`, `sinc`, Bessel
window table) lives over `ℝ` because the source uses `sin`, `sqrt` and `π`.
-/

namespace SimpleSrc

/-- Error type of the crate root (`lib.rs`). -/
inductive Error where
  | unsupportedRatio
  | invalidParam
  | notEnoughParam
deriving DecidableEq

/-- Lifecycle states of the linear converters (`linear.rs`). -/
inductive LState where
  | first
  | normal
  | suspend
deriving DecidableEq

/-- Lifecycle states of the sinc converter (`sinc.rs`). -/
inductive SState where
  | normal
  | suspend
deriving DecidableEq

section Streaming

variable {K : Type} [LinearOrderedField K] [FloorRing K]

/-- The precomputed fractional-coefficient table `coefs[i] = i / denom`,
built both by `linear::RationalFastConverter::new` and `sinc::Converter::new`. -/
def coefTable (K : Type) [LinearOrderedField K] (denom : Nat) : List K :=
  (List.range denom).map fun (i : Nat) => (i : K) / (denom : K)

/-- State of `linear::FloatConverter`. -/
structure LinFloat (K : Type) where
  state : LState
  last0 : K
  last1 : K
  step : K
  pos : K
deriving DecidableEq

/-- State of `linear::RationalConverter`. -/
structure LinRat (K : Type) where
  state : LState
  last0 : K
  last1 : K
  numer : Nat
  denom : Nat
  pos : Nat
  recip : K
deriving DecidableEq

/-- State of `linear::RationalFastConverter`. -/
structure LinFast (K : Type) where
  state : LState
  last0 : K
  last1 : K
  numer : Nat
  denom : Nat
  pos : Nat
  coef : List K
deriving DecidableEq

/-- `FloatConverter::new(step)`. -/
def linFloatNew (step : K) : LinFloat K :=
  { state := .first, last0 := 0, last1 := 0, step := step, pos := 0 }

/-- `RationalConverter::new(step)`; the `Rational64` step is an exact `ℚ`. -/
def linRatNew (K : Type) [LinearOrderedField K] (step : ℚ) : LinRat K :=
  { state := .first, last0 := 0, last1 := 0, numer := step.num.toNat,
    denom := step.den, pos := 0, recip := ((step.den : K))⁻¹ }

/-- `RationalFastConverter::new(step)`. -/
def linFastNew (K : Type) [LinearOrderedField K] (step : ℚ) : LinFast K :=
  { state := .first, last0 := 0, last1 := 0, numer := step.num.toNat,
    denom := step.den, pos := 0, coef := coefTable K step.den }

/-- The input-draining `while pos >= denom` loop shared by
`RationalConverter::next_sample` and `RationalFastConverter::next_sample`.
Returns the updated `(pos, last_in[0], last_in[1])`, the unconsumed input, and
`true` when the loop exited normally (`false` when the input ran dry and the
converter must suspend; the fourth component is then `[]`). -/
def linAdvance (denom : Nat) : List K → Nat → K → K → Nat × K × K × List K × Bool
  | xs, pos, l0, l1 =>
    if pos < denom then (pos, l0, l1, xs, true)
    else
      match xs with
      | [] => (pos - denom, l1, l1, [], false)
      | x :: rest => linAdvance denom rest (pos - denom) l1 x

/-- The `State::Normal` arm of `RationalFastConverter::next_sample`. -/
def linFastNormal (s : LinFast K) (xs : List K) : Option K × LinFast K × List K :=
  match linAdvance s.denom xs s.pos s.last0 s.last1 with
  | (pos, l0, l1, rest, true) =>
    let c := s.coef.getD pos 0
    (some (l0 + (l1 - l0) * c),
      { s with pos := pos + s.numer, last0 := l0, last1 := l1, state := .normal }, rest)
  | (pos, l0, l1, _, false) =>
    (none, { s with pos := pos, last0 := l0, last1 := l1, state := .suspend }, [])

/-- `RationalFastConverter::next_sample`. -/
def linFastStep (s : LinFast K) (xs : List K) : Option K × LinFast K × List K :=
  match s.state with
  | .first =>
    match xs with
    | [] => (none, s, [])
    | x :: rest => linFastNormal { s with last1 := x, pos := s.numer, state := .normal } rest
  | .suspend =>
    match xs with
    | [] => (none, s, [])
    | x :: rest => linFastNormal { s with last1 := x, state := .normal } rest
  | .normal => linFastNormal s xs

/-- The `State::Normal` arm of `RationalConverter::next_sample`. -/
def linRatNormal (s : LinRat K) (xs : List K) : Option K × LinRat K × List K :=
  match linAdvance s.denom xs s.pos s.last0 s.last1 with
  | (pos, l0, l1, rest, true) =>
    let c := (pos : K) * s.recip
    (some (l0 + (l1 - l0) * c),
      { s with pos := pos + s.numer, last0 := l0, last1 := l1, state := .normal }, rest)
  | (pos, l0, l1, _, false) =>
    (none, { s with pos := pos, last0 := l0, last1 := l1, state := .suspend }, [])

/-- `RationalConverter::next_sample`. -/
def linRatStep (s : LinRat K) (xs : List K) : Option K × LinRat K × List K :=
  match s.state with
  | .first =>
    match xs with
    | [] => (none, s, [])
    | x :: rest => linRatNormal { s with last1 := x, pos := s.numer, state := .normal } rest
  | .suspend =>
    match xs with
    | [] => (none, s, [])
    | x :: rest => linRatNormal { s with last1 := x, state := .normal } rest
  | .normal => linRatNormal s xs

/-- The input-draining `while pos >= 1.0` loop of `FloatConverter::next_sample`. -/
def linFloatAdvance : List K → K → K → K → K × K × K × List K × Bool
  | xs, pos, l0, l1 =>
    if pos < 1 then (pos, l0, l1, xs, true)
    else
      match xs with
      | [] => (pos - 1, l1, l1, [], false)
      | x :: rest => linFloatAdvance rest (pos - 1) l1 x

/-- The `State::Normal` arm of `FloatConverter::next_sample`. -/
def linFloatNormal (s : LinFloat K) (xs : List K) : Option K × LinFloat K × List K :=
  match linFloatAdvance xs s.pos s.last0 s.last1 with
  | (pos, l0, l1, rest, true) =>
    (some (l0 + (l1 - l0) * pos),
      { s with pos := pos + s.step, last0 := l0, last1 := l1, state := .normal }, rest)
  | (pos, l0, l1, _, false) =>
    (none, { s with pos := pos, last0 := l0, last1 := l1, state := .suspend }, [])

/-- `FloatConverter::next_sample`. -/
def linFloatStep (s : LinFloat K) (xs : List K) : Option K × LinFloat K × List K :=
  match s.state with
  | .first =>
    match xs with
    | [] => (none, s, [])
    | x :: rest => linFloatNormal { s with last1 := x, pos := 1, state := .normal } rest
  | .suspend =>
    match xs with
    | [] => (none, s, [])
    | x :: rest => linFloatNormal { s with last1 := x, state := .normal } rest
  | .normal => linFloatNormal s xs

/-- State of `sinc::Converter`. -/
structure SincConv (K : Type) where
  numer : Nat
  denom : Nat
  pos : Nat
  coefs : List K
  half_order : K
  quan : K
  filter : List K
  buf : List K
  state : SState
deriving DecidableEq

/-- `usize::MAX + 1`, for the one wrapping subtraction/addition in
`Converter::interpolate`. -/
def USIZE : Nat := 2 ^ 64

/-- Rust `f64 as usize` on the nonnegative values produced in `interpolate`:
truncation toward zero, saturating at `usize::MAX` (negative values clamp
to 0 via `Int.toNat`). -/
def f2u (x : K) : Nat := min (Int.toNat ⌊x⌋) (USIZE - 1)

/-- One guarded tap of the symmetric convolution loop of
`Converter::interpolate`: if the filter index is in range, linearly
interpolate the two neighbouring table entries and accumulate
`buf[idx] * h`. -/
def accTapD (filter buf : List K) (posx : K) (posu : Nat) (pos_max idx : Nat) (acc : K) : K :=
  if posu < pos_max then
    let h1 := filter.getD posu 0
    let h2 := filter.getD (posu + 1) 0
    acc + buf.getD idx 0 * (h1 + (h2 - h1) * (posx - (posu : K)))
  else acc

/-- The `for _ in 0..iter_count` loop of `Converter::interpolate`, walking
outward with `left` decreasing (`wrapping_sub`) and `right` increasing
(`wrapping_add`). -/
def interpLoop (filter buf : List K) (quanK coef : K) (pos_max : Nat) :
    Nat → Nat → Nat → K → K
  | 0, _, _, acc => acc
  | n + 1, left, right, acc =>
    let pos1 := |coef - (left : K)| * quanK
    let pos2 := |coef - (right : K)| * quanK
    let acc1 := accTapD filter buf pos1 (f2u pos1) pos_max left acc
    let acc2 := accTapD filter buf pos2 (f2u pos2) pos_max right acc1
    interpLoop filter buf quanK coef pos_max n
      ((left + (USIZE - 1)) % USIZE) ((right + 1) % USIZE) acc2

/-- `Converter::interpolate`. -/
def interpolate (s : SincConv K) : K :=
  let coef := s.coefs.getD s.pos 0
  let pos_max := s.filter.length - 1
  let taps := s.buf.length
  let iter_count := taps / 2
  if taps % 2 = 1 then
    let p := coef * s.quan
    let pu := f2u p
    let h1 := s.filter.getD pu 0
    let h2 := s.filter.getD (pu + 1) 0
    let h := h1 + (h2 - h1) * (p - (pu : K))
    interpLoop s.filter s.buf s.quan (coef + s.half_order) pos_max iter_count
      (iter_count - 1) (iter_count + 1) (s.buf.getD iter_count 0 * h)
  else
    interpLoop s.filter s.buf s.quan (coef + s.half_order) pos_max iter_count
      (iter_count - 1) iter_count 0

/-- The input-draining `while pos >= denom` loop of
`sinc::Converter::next_sample`; on each iteration one sample is pulled and
shifted into the ring buffer (`pop_front` + `push_back`). When the input runs
dry the converter suspends with the buffer untouched for that iteration. -/
def sincAdvance (denom : Nat) : List K → Nat → List K → Nat × List K × List K × Bool
  | xs, pos, buf =>
    if pos < denom then (pos, buf, xs, true)
    else
      match xs with
      | [] => (pos - denom, buf, [], false)
      | x :: rest => sincAdvance denom rest (pos - denom) (buf.tail ++ [x])

/-- The `State::Normal` arm of `sinc::Converter::next_sample`. -/
def sincNormal (s : SincConv K) (xs : List K) : Option K × SincConv K × List K :=
  match sincAdvance s.denom xs s.pos s.buf with
  | (pos, buf, rest, true) =>
    let s1 := { s with pos := pos, buf := buf, state := SState.normal }
    (some (interpolate s1), { s1 with pos := pos + s.numer }, rest)
  | (pos, buf, _, false) =>
    (none, { s with pos := pos, buf := buf, state := .suspend }, [])

/-- `sinc::Converter::next_sample`. -/
def sincStep (s : SincConv K) (xs : List K) : Option K × SincConv K × List K :=
  match s.state with
  | .suspend =>
    match xs with
    | [] => (none, s, [])
    | x :: rest => sincNormal { s with buf := s.buf.tail ++ [x], state := .normal } rest
  | .normal => sincNormal s xs

/-- `sinc::Converter::new(step, order, quan, filter)`; the `Rational64` step
is an exact `ℚ`. -/
def sincConvNew (K : Type) [LinearOrderedField K] (step : ℚ) (order quan : Nat)
    (filter : List K) : SincConv K :=
  { numer := step.num.toNat
    denom := step.den
    pos := 0
    coefs := coefTable K step.den
    half_order := (1/2 : K) * (order : K)
    quan := (quan : K)
    filter := filter
    buf := List.replicate (order + 1) 0
    state := .normal }

end Streaming

section Resume

variable {K S : Type} (step : S → List K → Option K × S × List K)

/-- Drive a converter: make up to `n` calls to `step`, collecting the emitted
samples, stopping at the first call that returns `None`. Returns the outputs,
the final converter state and the unconsumed input. -/
def produce : Nat → S → List K → List K × S × List K
  | 0, s, xs => ([], s, xs)
  | n + 1, s, xs =>
    match step s xs with
    | (some v, s1, rest) =>
      let r := produce n s1 rest
      (v :: r.1, r.2)
    | (none, s1, rest) => ([], s1, rest)

/-- A step function is input-extension compatible: a call that emits a sample
behaves the same when the input iterator has more elements queued behind. -/
def StepExtend : Prop :=
  ∀ s xs v s1 rest ys, step s xs = (some v, s1, rest) →
    step s (xs ++ ys) = (some v, s1, rest ++ ys)

/-- A step function drains its input before reporting `None`, and the saved
state replays exactly: calling on `xs ++ ys` equals calling the suspended
state on `ys` alone. -/
def StepDrain : Prop :=
  ∀ s xs s1 rest, step s xs = (none, s1, rest) →
    rest = [] ∧ ∀ ys, step s (xs ++ ys) = step s1 ys

/-- Suspend/resume equivalence for an abstract converter step: if driving on a
truncated input reaches `None` (the run is fuel-stable) with final state `s1`,
then resuming `s1` on the remaining input produces exactly the tail of the
outputs of a single uninterrupted run on the full input. -/
def Resumable : Prop :=
  ∀ n m (s : S) (xs ys : List K) o1 s1 o2 s2 r2,
    produce step (n + 1) s xs = produce step n s xs →
    produce step n s xs = (o1, s1, []) →
    produce step (m + 1) s1 ys = (o2, s2, r2) →
    produce step (o1.length + m + 1) s (xs ++ ys) = (o1 ++ o2, s2, r2)


end Resume

section CheckedDefs

variable {K : Type} [LinearOrderedField K] [FloorRing K]

/-- Bounds-checked version of `accTapD`: the same guarded tap, but with every
slice access through `List.get?`, so an out-of-range index (a Rust panic)
surfaces as `none`. -/
def accTap (filter buf : List K) (posx : K) (posu : Nat) (pos_max idx : Nat) (acc : K) :
    Option K :=
  if posu < pos_max then
    match filter.get? posu, filter.get? (posu + 1), buf.get? idx with
    | some h1, some h2, some bv => some (acc + bv * (h1 + (h2 - h1) * (posx - (posu : K))))
    | _, _, _ => none
  else some acc

/-- Bounds-checked version of `interpLoop`. -/
def interpLoopChecked (filter buf : List K) (quanK coef : K) (pos_max : Nat) :
    Nat → Nat → Nat → K → Option K
  | 0, _, _, acc => some acc
  | n + 1, left, right, acc =>
    let pos1 := |coef - (left : K)| * quanK
    let pos2 := |coef - (right : K)| * quanK
    match accTap filter buf pos1 (f2u pos1) pos_max left acc with
    | none => none
    | some acc1 =>
      match accTap filter buf pos2 (f2u pos2) pos_max right acc1 with
      | none => none
      | some acc2 =>
        interpLoopChecked filter buf quanK coef pos_max n
          ((left + (USIZE - 1)) % USIZE) ((right + 1) % USIZE) acc2

/-- Bounds-checked version of `Converter::interpolate`: every slice index the
Rust code uses (`coefs[pos]`, the unguarded centre-tap filter reads, and the
guarded loop reads) goes through `List.get?`. -/
def interpolateChecked (s : SincConv K) : Option K :=
  match s.coefs.get? s.pos with
  | none => none
  | some coef =>
    let pos_max := s.filter.length - 1
    let taps := s.buf.length
    let iter_count := taps / 2
    if taps % 2 = 1 then
      let p := coef * s.quan
      let pu := f2u p
      match s.filter.get? pu, s.filter.get? (pu + 1), s.buf.get? iter_count with
      | some h1, some h2, some bv =>
        interpLoopChecked s.filter s.buf s.quan (coef + s.half_order) pos_max iter_count
          (iter_count - 1) (iter_count + 1) (bv * (h1 + (h2 - h1) * (p - (pu : K))))
      | _, _, _ => none
    else
      interpLoopChecked s.filter s.buf s.quan (coef + s.half_order) pos_max iter_count
        (iter_count - 1) iter_count 0

/-- Bounds-checked `State::Normal` arm of `sinc::Converter::next_sample`. -/
def sincNormalChecked (s : SincConv K) (xs : List K) :
    Option (Option K × SincConv K × List K) :=
  match sincAdvance s.denom xs s.pos s.buf with
  | (pos, buf, rest, true) =>
    let s1 := { s with pos := pos, buf := buf, state := SState.normal }
    match interpolateChecked s1 with
    | none => none
    | some v => some (some v, { s1 with pos := pos + s.numer }, rest)
  | (pos, buf, _, false) =>
    some (none, { s with pos := pos, buf := buf, state := .suspend }, [])

/-- Bounds-checked `sinc::Converter::next_sample`. -/
def sincStepChecked (s : SincConv K) (xs : List K) :
    Option (Option K × SincConv K × List K) :=
  match s.state with
  | .suspend =>
    match xs with
    | [] => some (none, s, [])
    | x :: rest => sincNormalChecked { s with buf := s.buf.tail ++ [x], state := .normal } rest
  | .normal => sincNormalChecked s xs

/-- Bounds-checked driver: `none` as soon as any call would panic. -/
def produceChecked {S : Type} (stepc : S → List K → Option (Option K × S × List K)) :
    Nat → S → List K → Option (List K × S × List K)
  | 0, s, xs => some ([], s, xs)
  | n + 1, s, xs =>
    match stepc s xs with
    | none => none
    | some (some v, s1, rest) =>
      match produceChecked stepc n s1 rest with
      | none => none
      | some r => some (v :: r.1, r.2)
    | some (none, s1, rest) => some ([], s1, rest)

/-- Structural wellformedness of a sinc converter state, as established by
`Manager::with_raw_internal` followed by `Manager::converter` and preserved by
`next_sample`: the parameter ranges of the validated constructors, the
coefficient table for the current `denom`, and the table/buffer lengths. -/
structure SincWF (s : SincConv K) (order quan : Nat) : Prop where
  ho1 : 1 ≤ order
  ho2 : order ≤ 2048
  hq1 : 1 ≤ quan
  hq2 : quan ≤ 16384
  hd : 1 ≤ s.denom
  hcoefs : s.coefs = coefTable K s.denom
  hhalf : s.half_order = (1/2 : K) * (order : K)
  hquan : s.quan = (quan : K)
  hfil : s.filter.length = order * quan / 2 + 1
  hbuf : s.buf.length = order + 1

/-- The `for k in 1..32` accumulation loop of `bessel_i0`: `fuel` counts the
remaining iterations, `k` is the loop counter, `t` the running term and `y`
the running sum. -/
def besselGo (x : K) : Nat → Nat → K → K → K
  | 0, _, _, y => y
  | fuel + 1, k, t, y =>
    let t1 := t * (x / (2 * (k : K))) ^ 2
    let y1 := y + t1
    if t1 < 1 / 10 ^ 10 then y1 else besselGo x fuel (k + 1) t1 y1

/-- `bessel_i0` from `sinc.rs` (the `1e-10` threshold is the exact rational
`10⁻¹⁰`). -/
def bessel_i0 (x : K) : K := besselGo x 31 1 1 1

/-- Modelled from the spec: the truncated power series for the modified Bessel
function `I₀`, with closed-form terms `((x/2)^k / k!)²`, adding terms until a
term (from the first onward) drops below `1e-10`, capped at 32 terms in
total. `fuel` is the number of terms still allowed, `k` the term index. -/
def besselI0SpecAux (x : K) : Nat → Nat → K
  | 0, _ => 0
  | fuel + 1, k =>
    let t := ((x / 2) ^ k / (Nat.factorial k : K)) ^ 2
    if t < 1 / 10 ^ 10 then t else t + besselI0SpecAux x fuel (k + 1)

/-- Modelled from the spec: the truncated `I₀` power series, 32 terms cap. -/
def besselI0Spec (x : K) : K := besselI0SpecAux x 32 0

end CheckedDefs

/-- `Ratio` from `ratio.rs`; both the `f64` payload of `Float` and the
`Rational64` payload of `Rational` are exact rationals in the embedding. -/
inductive LRatio where
  | float : ℚ → LRatio
  | rational : ℚ → LRatio
deriving DecidableEq

/-- `Ratio::is_supported`. -/
def LRatio.is_supported : LRatio → Bool
  | .float x => decide (1 / 16 ≤ x ∧ x ≤ 16)
  | .rational r => decide (0 < r ∧ ⌈r⌉ ≤ 16 ∧ ⌈r⁻¹⌉ ≤ 16)

/-- `Ratio::try_from_float`; `Rational64::approximate_float` is modelled as
the identity on the exact rational input (the continued-fraction approximation
of a value that is already a small rational returns it unchanged at the
default precision). -/
def LRatio.try_from_float (x : ℚ) : Except Error LRatio :=
  if (LRatio.float x).is_supported then
    if (LRatio.rational x).is_supported then .ok (.rational x) else .ok (.float x)
  else .error .unsupportedRatio

/-- `linear::Manager`. -/
structure LinManager where
  ratio : LRatio
deriving DecidableEq

/-- `linear::Manager::new`. -/
def LinManager.new (ratio : ℚ) : Except Error LinManager :=
  match LRatio.try_from_float ratio with
  | .error e => .error e
  | .ok r => .ok { ratio := r }

/-- `linear::Converter`, the dispatch enum. -/
inductive LinConverter (K : Type) where
  | float : LinFloat K → LinConverter K
  | rational : LinRat K → LinConverter K
  | rationalFast : LinFast K → LinConverter K
deriving DecidableEq

/-- `linear::Converter::new`. -/
def linConvNew (K : Type) [LinearOrderedField K] (ratio : LRatio) : LinConverter K :=
  match ratio with
  | .float x => .float (linFloatNew ((x⁻¹ : ℚ) : K))
  | .rational r =>
    if r.num ≤ 16384 then .rationalFast (linFastNew K r⁻¹)
    else .rational (linRatNew K r⁻¹)

/-- `linear::Manager::converter`. -/
def LinManager.converter (K : Type) [LinearOrderedField K] (m : LinManager) :
    LinConverter K :=
  linConvNew K m.ratio

/-- `next_sample` on the `linear::Converter` enum. -/
def linConvStep {K : Type} [LinearOrderedField K] (c : LinConverter K) (xs : List K) :
    Option K × LinConverter K × List K :=
  match c with
  | .float s =>
    match linFloatStep s xs with
    | (o, s1, r) => (o, .float s1, r)
  | .rational s =>
    match linRatStep s xs with
    | (o, s1, r) => (o, .rational s1, r)
  | .rationalFast s =>
    match linFastStep s xs with
    | (o, s1, r) => (o, .rationalFast s1, r)

/-- Modelled from the spec: `supported_ratio` is declared in the crate root
(`use crate::supported_ratio` in `sinc.rs`) but the crate root included here
does not contain its definition. Per spec §3 and §7 the sinc-path ratio is
supported iff it is positive, `⌈r⌉ ≤ 16`, `⌈1/r⌉ ≤ 16`, and the reduced
numerator is at most 1024. -/
def supported_ratio (r : ℚ) : Bool :=
  decide (0 < r ∧ ⌈r⌉ ≤ 16 ∧ ⌈r⁻¹⌉ ≤ 16 ∧ r.num ≤ 1024)

/-- `sinc::Manager`: the immutable plan. -/
structure SincManager where
  ratio : ℚ
  order : Nat
  quan : Nat
  latency : Nat
  filter : List ℝ

noncomputable section DesignLayer

/-- `sinc_c` from `sinc.rs`. -/
def sinc_c (x cutoff : ℝ) : ℝ :=
  if x ≠ 0 then Real.sin (Real.pi * x * cutoff) / (Real.pi * x) else cutoff

/-- `generate_filter_table` from `sinc.rs`. -/
def generate_filter_table (quan order : Nat) (beta cutoff : ℝ) : List ℝ :=
  let len := order * quan / 2
  let i0_beta := bessel_i0 beta
  let half_order := (order : ℝ) * 0.5
  ((List.range len).map fun (i : Nat) =>
    let pos := (i : ℝ) / (quan : ℝ)
    let i0_1 := bessel_i0 (beta * Real.sqrt (1 - (pos / half_order) ^ 2))
    sinc_c pos cutoff * (i0_1 / i0_beta)) ++ [0]

/-- `calc_kaiser_beta` from `sinc.rs` (`powf(0.4)` is real exponentiation). -/
def calc_kaiser_beta (atten : ℝ) : ℝ :=
  if 50 < atten then 0.1102 * (atten - 8.7)
  else if 21 ≤ atten then 0.5842 * (atten - 21) ^ (0.4 : ℝ) + 0.07886 * (atten - 21)
  else 0

/-- `calc_order` from `sinc.rs`; the `as u32` cast of the (positive) ceiling
is `Int.toNat`. -/
def calc_order (ratio atten trans_width : ℝ) : Nat :=
  (⌈(atten - 8) / (2.285 * trans_width * Real.pi * min ratio 1)⌉).toNat

/-- Rust `f64::round`: round half away from zero. -/
def roundf64 (x : ℝ) : ℤ :=
  if 0 ≤ x then ⌊x + 1/2⌋ else -⌊-x + 1/2⌋

/-- `Manager::with_raw_internal` from `sinc.rs`. -/
def SincManager.with_raw_internal (ratio : ℚ) (quan order : Nat)
    (kaiser_beta cutoff : ℝ) : Except Error SincManager :=
  if supported_ratio ratio then
    if 1 ≤ quan ∧ quan ≤ 16384 ∧ 1 ≤ order ∧ order ≤ 2048 ∧
        0 ≤ kaiser_beta ∧ kaiser_beta ≤ 20 ∧ 0.01 ≤ cutoff ∧ cutoff ≤ 1 then
      let filter := generate_filter_table quan order kaiser_beta cutoff
      let fratio : ℝ := (ratio : ℝ)
      let latency := (roundf64 (fratio * (order : ℝ) * 0.5)).toNat
      .ok { ratio := ratio, order := order, quan := quan, latency := latency,
            filter := filter }
    else .error .invalidParam
  else .error .unsupportedRatio

/-- `Manager::new_internal` from `sinc.rs`. -/
def SincManager.new_internal (ratio : ℚ) (atten : ℝ) (quan : Nat)
    (trans_width : ℝ) : Except Error SincManager :=
  if supported_ratio ratio then
    if 12 ≤ atten ∧ atten ≤ 180 ∧ 1 ≤ quan ∧ quan ≤ 16384 ∧
        0.01 ≤ trans_width ∧ trans_width ≤ 1 then
      let kaiser_beta := calc_kaiser_beta atten
      let fratio : ℝ := (ratio : ℝ)
      let order := calc_order fratio atten trans_width
      let cutoff := min fratio 1 * (1 - 0.5 * trans_width)
      SincManager.with_raw_internal ratio quan order kaiser_beta cutoff
    else .error .invalidParam
  else .error .unsupportedRatio

/-- `Manager::new` from `sinc.rs`; `Rational64::approximate_float` is modelled
as the identity on the exact rational ratio argument. -/
def SincManager.new (ratio : ℚ) (atten : ℝ) (quan : Nat) (trans_width : ℝ) :
    Except Error SincManager :=
  SincManager.new_internal ratio atten quan trans_width

/-- `Manager::converter` from `sinc.rs`: mint a converter whose step is the
reciprocal ratio, sharing the filter table. -/
def SincManager.converter (m : SincManager) : SincConv ℝ :=
  sincConvNew ℝ m.ratio⁻¹ m.order m.quan m.filter

end DesignLayer

section ProduceLemmas

variable {K S : Type} (step : S → List K → Option K × S × List K)

theorem produce_succ_of_some {s : S} {xs : List K} {v s1 rest}
    (h : step s xs = (some v, s1, rest)) (n : Nat) :
    produce step (n + 1) s xs =
      (v :: (produce step n s1 rest).1, (produce step n s1 rest).2) := by
  simp [produce, h]

theorem produce_succ_of_none {s : S} {xs : List K} {s1 rest}
    (h : step s xs = (none, s1, rest)) (n : Nat) :
    produce step (n + 1) s xs = ([], s1, rest) := by
  simp [produce, h]

theorem produce_head_congr {s t : S} {xs ys : List K}
    (h : step s xs = step t ys) (k : Nat) :
    produce step (k + 1) s xs = produce step (k + 1) t ys := by
  rcases hst : step t ys with ⟨o, s1, rest⟩
  cases o <;> simp [produce, h.trans hst, hst]


theorem resumable_of_extend_drain (hA : StepExtend step) (hB : StepDrain step) :
    Resumable step := by
  intro n
  induction n with
  | zero =>
    intro m s xs ys o1 s1 o2 s2 r2 _ h2 h3
    simp only [produce, Prod.mk.injEq] at h2
    obtain ⟨ho, hs, hxs⟩ := h2
    subst ho hs hxs
    simpa using h3
  | succ n ih =>
    intro m s xs ys o1 s1 o2 s2 r2 h1 h2 h3
    rcases hst : step s xs with ⟨o, sA, restA⟩
    cases o with
    | some v =>
      rw [produce_succ_of_some step hst (n + 1), produce_succ_of_some step hst n] at h1
      have h1' : produce step (n + 1) sA restA = produce step n sA restA := by
        rcases hp : produce step (n + 1) sA restA with ⟨a1, b1⟩
        rcases hq : produce step n sA restA with ⟨a2, b2⟩
        rw [hp, hq] at h1
        simp only [Prod.mk.injEq, List.cons.injEq] at h1
        exact Prod.ext h1.1.2 h1.2
      rw [produce_succ_of_some step hst n] at h2
      rcases hq : produce step n sA restA with ⟨o1', s1', r1'⟩
      rw [hq] at h2
      simp only [Prod.mk.injEq] at h2
      obtain ⟨hh, hs1, hr1⟩ := h2
      have hq' : produce step n sA restA = (o1', s1, []) := by rw [hq, hs1, hr1]
      have hres := ih m sA restA ys o1' s1 o2 s2 r2 h1' hq' h3
      have hlen : o1.length + m + 1 = (o1'.length + m + 1) + 1 := by
        rw [← hh]; simp [List.length_cons]; omega
      rw [hlen, produce_succ_of_some step (hA s xs v sA restA ys hst) (o1'.length + m + 1),
        hres, ← hh]
      simp
    | none =>
      obtain ⟨hrest, hrepl⟩ := hB s xs sA restA hst
      rw [produce_succ_of_none step hst n] at h2
      simp only [Prod.mk.injEq] at h2
      obtain ⟨hh, hs1, _⟩ := h2
      subst hh hs1
      have hcongr := produce_head_congr step (hrepl ys) m
      simp only [List.length_nil, Nat.zero_add, List.nil_append]
      rw [hcongr, h3]


end ProduceLemmas

section StepLemmas

variable {K : Type} [LinearOrderedField K] [FloorRing K]

theorem linAdvance_extend {d : Nat} :
    ∀ (xs : List K) (pos : Nat) (l0 l1 : K) {p : Nat} {a b : K} {r : List K},
      linAdvance d xs pos l0 l1 = (p, a, b, r, true) →
      ∀ ys, linAdvance d (xs ++ ys) pos l0 l1 = (p, a, b, r ++ ys, true) := by
  intro xs
  induction xs with
  | nil =>
    intro pos l0 l1 p a b r h ys
    by_cases hp : pos < d
    · simp only [linAdvance, if_pos hp, Prod.mk.injEq] at h
      obtain ⟨h1, h2, h3, h4, _⟩ := h
      subst h1 h2 h3 h4
      rw [List.nil_append, linAdvance.eq_def]
      simp [hp]
    · simp [linAdvance, hp] at h
  | cons x t ih =>
    intro pos l0 l1 p a b r h ys
    by_cases hp : pos < d
    · simp only [linAdvance, if_pos hp, Prod.mk.injEq] at h
      obtain ⟨h1, h2, h3, h4, _⟩ := h
      subst h1 h2 h3 h4
      simp [linAdvance, hp]
    · simp only [linAdvance, if_neg hp] at h
      simp only [List.cons_append, linAdvance, if_neg hp]
      exact ih (pos - d) l1 x h ys

theorem linAdvance_drain {d : Nat} :
    ∀ (xs : List K) (pos : Nat) (l0 l1 : K) {p : Nat} {a b : K} {r : List K},
      linAdvance d xs pos l0 l1 = (p, a, b, r, false) →
      r = [] ∧ a = b ∧
        ∀ (y : K) (ys : List K),
          linAdvance d (xs ++ y :: ys) pos l0 l1 = linAdvance d ys p a y := by
  intro xs
  induction xs with
  | nil =>
    intro pos l0 l1 p a b r h
    by_cases hp : pos < d
    · simp [linAdvance, hp] at h
    · simp only [linAdvance, if_neg hp, Prod.mk.injEq] at h
      obtain ⟨h1, h2, h3, h4, _⟩ := h
      subst h1 h2 h3 h4
      refine ⟨rfl, rfl, ?_⟩
      intro y ys
      simp [linAdvance, hp]
  | cons x t ih =>
    intro pos l0 l1 p a b r h
    by_cases hp : pos < d
    · simp [linAdvance, hp] at h
    · simp only [linAdvance, if_neg hp] at h
      obtain ⟨h1, h2, h3⟩ := ih (pos - d) l1 x h
      refine ⟨h1, h2, ?_⟩
      intro y ys
      simp only [List.cons_append, linAdvance, if_neg hp]
      exact h3 y ys

theorem linFastNormal_extend {s : LinFast K} {xs : List K} {v : K} {s1 : LinFast K}
    {r : List K} (h : linFastNormal s xs = (some v, s1, r)) (ys : List K) :
    linFastNormal s (xs ++ ys) = (some v, s1, r ++ ys) := by
  rcases ha : linAdvance s.denom xs s.pos s.last0 s.last1 with ⟨p, a, b, r', fl⟩
  cases fl
  · rw [linFastNormal, ha] at h; simp at h
  · rw [linFastNormal, ha] at h
    rw [linFastNormal, linAdvance_extend xs s.pos s.last0 s.last1 ha ys]
    simp only [Prod.mk.injEq] at h ⊢
    exact ⟨h.1, h.2.1, by rw [← h.2.2]⟩

theorem linFastNormal_drain {s : LinFast K} {xs : List K} {s1 : LinFast K}
    {r : List K} (h : linFastNormal s xs = (none, s1, r)) :
    r = [] ∧ ∀ ys, linFastNormal s (xs ++ ys) = linFastStep s1 ys := by
  rcases ha : linAdvance s.denom xs s.pos s.last0 s.last1 with ⟨p, a, b, r', fl⟩
  cases fl
  case true => rw [linFastNormal, ha] at h; simp at h
  case false =>
  rw [linFastNormal, ha] at h
  simp only [Prod.mk.injEq] at h
  obtain ⟨_, hs1, hr⟩ := h
  obtain ⟨hr', hab, hresume⟩ := linAdvance_drain xs s.pos s.last0 s.last1 ha
  refine ⟨hr.symm, ?_⟩
  intro ys
  cases ys with
  | nil =>
    rw [List.append_nil, linFastNormal, ha, ← hs1]
    simp only [linFastStep.eq_def]
  | cons y t =>
    rw [← hs1]
    simp only [linFastStep.eq_def]
    rw [linFastNormal, hresume y t]
    simp only [linFastNormal, hab]

theorem linFastStep_extend : StepExtend (linFastStep (K := K)) := by
  intro s xs v s1 rest ys h
  match hs : s.state with
  | .normal =>
    simp only [linFastStep.eq_def, hs] at h ⊢
    exact linFastNormal_extend h ys
  | .first =>
    simp only [linFastStep.eq_def, hs] at h ⊢
    cases xs with
    | nil => simp at h
    | cons x t =>
      rw [List.cons_append]
      exact linFastNormal_extend h ys
  | .suspend =>
    simp only [linFastStep.eq_def, hs] at h ⊢
    cases xs with
    | nil => simp at h
    | cons x t =>
      rw [List.cons_append]
      exact linFastNormal_extend h ys

theorem linFastStep_drain : StepDrain (linFastStep (K := K)) := by
  intro s xs s1 rest h
  match hs : s.state with
  | .normal =>
    simp only [linFastStep.eq_def, hs] at h
    obtain ⟨hr, hres⟩ := linFastNormal_drain h
    refine ⟨hr, ?_⟩
    intro ys
    simp only [linFastStep.eq_def, hs]
    exact hres ys
  | .first =>
    simp only [linFastStep.eq_def, hs] at h
    cases xs with
    | nil =>
      simp only [Prod.mk.injEq] at h
      obtain ⟨_, hs1, hr⟩ := h
      refine ⟨hr.symm, ?_⟩
      intro ys
      rw [List.nil_append, ← hs1]
    | cons x t =>
      obtain ⟨hr, hres⟩ := linFastNormal_drain h
      refine ⟨hr, ?_⟩
      intro ys
      rw [List.cons_append]
      simp only [linFastStep.eq_def, hs]
      exact hres ys
  | .suspend =>
    simp only [linFastStep.eq_def, hs] at h
    cases xs with
    | nil =>
      simp only [Prod.mk.injEq] at h
      obtain ⟨_, hs1, hr⟩ := h
      refine ⟨hr.symm, ?_⟩
      intro ys
      rw [List.nil_append, ← hs1]
    | cons x t =>
      obtain ⟨hr, hres⟩ := linFastNormal_drain h
      refine ⟨hr, ?_⟩
      intro ys
      rw [List.cons_append]
      simp only [linFastStep.eq_def, hs]
      exact hres ys

theorem linRatNormal_extend {s : LinRat K} {xs : List K} {v : K} {s1 : LinRat K}
    {r : List K} (h : linRatNormal s xs = (some v, s1, r)) (ys : List K) :
    linRatNormal s (xs ++ ys) = (some v, s1, r ++ ys) := by
  rcases ha : linAdvance s.denom xs s.pos s.last0 s.last1 with ⟨p, a, b, r', fl⟩
  cases fl
  · rw [linRatNormal, ha] at h; simp at h
  · rw [linRatNormal, ha] at h
    rw [linRatNormal, linAdvance_extend xs s.pos s.last0 s.last1 ha ys]
    simp only [Prod.mk.injEq] at h ⊢
    exact ⟨h.1, h.2.1, by rw [← h.2.2]⟩

theorem linRatNormal_drain {s : LinRat K} {xs : List K} {s1 : LinRat K}
    {r : List K} (h : linRatNormal s xs = (none, s1, r)) :
    r = [] ∧ ∀ ys, linRatNormal s (xs ++ ys) = linRatStep s1 ys := by
  rcases ha : linAdvance s.denom xs s.pos s.last0 s.last1 with ⟨p, a, b, r', fl⟩
  cases fl
  case true => rw [linRatNormal, ha] at h; simp at h
  case false =>
  rw [linRatNormal, ha] at h
  simp only [Prod.mk.injEq] at h
  obtain ⟨_, hs1, hr⟩ := h
  obtain ⟨hr', hab, hresume⟩ := linAdvance_drain xs s.pos s.last0 s.last1 ha
  refine ⟨hr.symm, ?_⟩
  intro ys
  cases ys with
  | nil =>
    rw [List.append_nil, linRatNormal, ha, ← hs1]
    simp only [linRatStep.eq_def]
  | cons y t =>
    rw [← hs1]
    simp only [linRatStep.eq_def]
    rw [linRatNormal, hresume y t]
    simp only [linRatNormal, hab]

theorem linRatStep_extend : StepExtend (linRatStep (K := K)) := by
  intro s xs v s1 rest ys h
  match hs : s.state with
  | .normal =>
    simp only [linRatStep.eq_def, hs] at h ⊢
    exact linRatNormal_extend h ys
  | .first =>
    simp only [linRatStep.eq_def, hs] at h ⊢
    cases xs with
    | nil => simp at h
    | cons x t =>
      rw [List.cons_append]
      exact linRatNormal_extend h ys
  | .suspend =>
    simp only [linRatStep.eq_def, hs] at h ⊢
    cases xs with
    | nil => simp at h
    | cons x t =>
      rw [List.cons_append]
      exact linRatNormal_extend h ys

theorem linRatStep_drain : StepDrain (linRatStep (K := K)) := by
  intro s xs s1 rest h
  match hs : s.state with
  | .normal =>
    simp only [linRatStep.eq_def, hs] at h
    obtain ⟨hr, hres⟩ := linRatNormal_drain h
    refine ⟨hr, ?_⟩
    intro ys
    simp only [linRatStep.eq_def, hs]
    exact hres ys
  | .first =>
    simp only [linRatStep.eq_def, hs] at h
    cases xs with
    | nil =>
      simp only [Prod.mk.injEq] at h
      obtain ⟨_, hs1, hr⟩ := h
      refine ⟨hr.symm, ?_⟩
      intro ys
      rw [List.nil_append, ← hs1]
    | cons x t =>
      obtain ⟨hr, hres⟩ := linRatNormal_drain h
      refine ⟨hr, ?_⟩
      intro ys
      rw [List.cons_append]
      simp only [linRatStep.eq_def, hs]
      exact hres ys
  | .suspend =>
    simp only [linRatStep.eq_def, hs] at h
    cases xs with
    | nil =>
      simp only [Prod.mk.injEq] at h
      obtain ⟨_, hs1, hr⟩ := h
      refine ⟨hr.symm, ?_⟩
      intro ys
      rw [List.nil_append, ← hs1]
    | cons x t =>
      obtain ⟨hr, hres⟩ := linRatNormal_drain h
      refine ⟨hr, ?_⟩
      intro ys
      rw [List.cons_append]
      simp only [linRatStep.eq_def, hs]
      exact hres ys

theorem linFloatAdvance_extend :
    ∀ (xs : List K) (pos : K) (l0 l1 : K) {p a b : K} {r : List K},
      linFloatAdvance xs pos l0 l1 = (p, a, b, r, true) →
      ∀ ys, linFloatAdvance (xs ++ ys) pos l0 l1 = (p, a, b, r ++ ys, true) := by
  intro xs
  induction xs with
  | nil =>
    intro pos l0 l1 p a b r h ys
    by_cases hp : pos < 1
    · simp only [linFloatAdvance, if_pos hp, Prod.mk.injEq] at h
      obtain ⟨h1, h2, h3, h4, _⟩ := h
      subst h1 h2 h3 h4
      rw [List.nil_append, linFloatAdvance.eq_def]
      simp [hp]
    · simp [linFloatAdvance, hp] at h
  | cons x t ih =>
    intro pos l0 l1 p a b r h ys
    by_cases hp : pos < 1
    · simp only [linFloatAdvance, if_pos hp, Prod.mk.injEq] at h
      obtain ⟨h1, h2, h3, h4, _⟩ := h
      subst h1 h2 h3 h4
      simp [linFloatAdvance, hp]
    · simp only [linFloatAdvance, if_neg hp] at h
      simp only [List.cons_append, linFloatAdvance, if_neg hp]
      exact ih (pos - 1) l1 x h ys

theorem linFloatAdvance_drain :
    ∀ (xs : List K) (pos : K) (l0 l1 : K) {p a b : K} {r : List K},
      linFloatAdvance xs pos l0 l1 = (p, a, b, r, false) →
      r = [] ∧ a = b ∧
        ∀ (y : K) (ys : List K),
          linFloatAdvance (xs ++ y :: ys) pos l0 l1 = linFloatAdvance ys p a y := by
  intro xs
  induction xs with
  | nil =>
    intro pos l0 l1 p a b r h
    by_cases hp : pos < 1
    · simp [linFloatAdvance, hp] at h
    · simp only [linFloatAdvance, if_neg hp, Prod.mk.injEq] at h
      obtain ⟨h1, h2, h3, h4, _⟩ := h
      subst h1 h2 h3 h4
      refine ⟨rfl, rfl, ?_⟩
      intro y ys
      simp [linFloatAdvance, hp]
  | cons x t ih =>
    intro pos l0 l1 p a b r h
    by_cases hp : pos < 1
    · simp [linFloatAdvance, hp] at h
    · simp only [linFloatAdvance, if_neg hp] at h
      obtain ⟨h1, h2, h3⟩ := ih (pos - 1) l1 x h
      refine ⟨h1, h2, ?_⟩
      intro y ys
      simp only [List.cons_append, linFloatAdvance, if_neg hp]
      exact h3 y ys

theorem linFloatNormal_extend {s : LinFloat K} {xs : List K} {v : K} {s1 : LinFloat K}
    {r : List K} (h : linFloatNormal s xs = (some v, s1, r)) (ys : List K) :
    linFloatNormal s (xs ++ ys) = (some v, s1, r ++ ys) := by
  rcases ha : linFloatAdvance xs s.pos s.last0 s.last1 with ⟨p, a, b, r', fl⟩
  cases fl
  · rw [linFloatNormal, ha] at h; simp at h
  · rw [linFloatNormal, ha] at h
    rw [linFloatNormal, linFloatAdvance_extend xs s.pos s.last0 s.last1 ha ys]
    simp only [Prod.mk.injEq] at h ⊢
    exact ⟨h.1, h.2.1, by rw [← h.2.2]⟩

theorem linFloatNormal_drain {s : LinFloat K} {xs : List K} {s1 : LinFloat K}
    {r : List K} (h : linFloatNormal s xs = (none, s1, r)) :
    r = [] ∧ ∀ ys, linFloatNormal s (xs ++ ys) = linFloatStep s1 ys := by
  rcases ha : linFloatAdvance xs s.pos s.last0 s.last1 with ⟨p, a, b, r', fl⟩
  cases fl
  case true => rw [linFloatNormal, ha] at h; simp at h
  case false =>
  rw [linFloatNormal, ha] at h
  simp only [Prod.mk.injEq] at h
  obtain ⟨_, hs1, hr⟩ := h
  obtain ⟨hr', hab, hresume⟩ := linFloatAdvance_drain xs s.pos s.last0 s.last1 ha
  refine ⟨hr.symm, ?_⟩
  intro ys
  cases ys with
  | nil =>
    rw [List.append_nil, linFloatNormal, ha, ← hs1]
    simp only [linFloatStep.eq_def]
  | cons y t =>
    rw [← hs1]
    simp only [linFloatStep.eq_def]
    rw [linFloatNormal, hresume y t]
    simp only [linFloatNormal, hab]

theorem linFloatStep_extend : StepExtend (linFloatStep (K := K)) := by
  intro s xs v s1 rest ys h
  match hs : s.state with
  | .normal =>
    simp only [linFloatStep.eq_def, hs] at h ⊢
    exact linFloatNormal_extend h ys
  | .first =>
    simp only [linFloatStep.eq_def, hs] at h ⊢
    cases xs with
    | nil => simp at h
    | cons x t =>
      rw [List.cons_append]
      exact linFloatNormal_extend h ys
  | .suspend =>
    simp only [linFloatStep.eq_def, hs] at h ⊢
    cases xs with
    | nil => simp at h
    | cons x t =>
      rw [List.cons_append]
      exact linFloatNormal_extend h ys

theorem linFloatStep_drain : StepDrain (linFloatStep (K := K)) := by
  intro s xs s1 rest h
  match hs : s.state with
  | .normal =>
    simp only [linFloatStep.eq_def, hs] at h
    obtain ⟨hr, hres⟩ := linFloatNormal_drain h
    refine ⟨hr, ?_⟩
    intro ys
    simp only [linFloatStep.eq_def, hs]
    exact hres ys
  | .first =>
    simp only [linFloatStep.eq_def, hs] at h
    cases xs with
    | nil =>
      simp only [Prod.mk.injEq] at h
      obtain ⟨_, hs1, hr⟩ := h
      refine ⟨hr.symm, ?_⟩
      intro ys
      rw [List.nil_append, ← hs1]
    | cons x t =>
      obtain ⟨hr, hres⟩ := linFloatNormal_drain h
      refine ⟨hr, ?_⟩
      intro ys
      rw [List.cons_append]
      simp only [linFloatStep.eq_def, hs]
      exact hres ys
  | .suspend =>
    simp only [linFloatStep.eq_def, hs] at h
    cases xs with
    | nil =>
      simp only [Prod.mk.injEq] at h
      obtain ⟨_, hs1, hr⟩ := h
      refine ⟨hr.symm, ?_⟩
      intro ys
      rw [List.nil_append, ← hs1]
    | cons x t =>
      obtain ⟨hr, hres⟩ := linFloatNormal_drain h
      refine ⟨hr, ?_⟩
      intro ys
      rw [List.cons_append]
      simp only [linFloatStep.eq_def, hs]
      exact hres ys

theorem sincAdvance_extend {d : Nat} :
    ∀ (xs : List K) (pos : Nat) (buf : List K) {p : Nat} {b r : List K},
      sincAdvance d xs pos buf = (p, b, r, true) →
      ∀ ys, sincAdvance d (xs ++ ys) pos buf = (p, b, r ++ ys, true) := by
  intro xs
  induction xs with
  | nil =>
    intro pos buf p b r h ys
    by_cases hp : pos < d
    · simp only [sincAdvance, if_pos hp, Prod.mk.injEq] at h
      obtain ⟨h1, h2, h3, _⟩ := h
      subst h1 h2 h3
      rw [List.nil_append, sincAdvance.eq_def]
      simp [hp]
    · simp [sincAdvance, hp] at h
  | cons x t ih =>
    intro pos buf p b r h ys
    by_cases hp : pos < d
    · simp only [sincAdvance, if_pos hp, Prod.mk.injEq] at h
      obtain ⟨h1, h2, h3, _⟩ := h
      subst h1 h2 h3
      simp [sincAdvance, hp]
    · simp only [sincAdvance, if_neg hp] at h
      simp only [List.cons_append, sincAdvance, if_neg hp]
      exact ih (pos - d) (buf.tail ++ [x]) h ys

theorem sincAdvance_drain {d : Nat} :
    ∀ (xs : List K) (pos : Nat) (buf : List K) {p : Nat} {b r : List K},
      sincAdvance d xs pos buf = (p, b, r, false) →
      r = [] ∧
        ∀ (y : K) (ys : List K),
          sincAdvance d (xs ++ y :: ys) pos buf = sincAdvance d ys p (b.tail ++ [y]) := by
  intro xs
  induction xs with
  | nil =>
    intro pos buf p b r h
    by_cases hp : pos < d
    · simp [sincAdvance, hp] at h
    · simp only [sincAdvance, if_neg hp, Prod.mk.injEq] at h
      obtain ⟨h1, h2, h3, _⟩ := h
      subst h1 h2 h3
      refine ⟨rfl, ?_⟩
      intro y ys
      simp [sincAdvance, hp]
  | cons x t ih =>
    intro pos buf p b r h
    by_cases hp : pos < d
    · simp [sincAdvance, hp] at h
    · simp only [sincAdvance, if_neg hp] at h
      obtain ⟨h1, h2⟩ := ih (pos - d) (buf.tail ++ [x]) h
      refine ⟨h1, ?_⟩
      intro y ys
      simp only [List.cons_append, sincAdvance, if_neg hp]
      exact h2 y ys

theorem sincNormal_extend {s : SincConv K} {xs : List K} {v : K} {s1 : SincConv K}
    {r : List K} (h : sincNormal s xs = (some v, s1, r)) (ys : List K) :
    sincNormal s (xs ++ ys) = (some v, s1, r ++ ys) := by
  rcases ha : sincAdvance s.denom xs s.pos s.buf with ⟨p, b, r', fl⟩
  cases fl
  · rw [sincNormal, ha] at h; simp at h
  · rw [sincNormal, ha] at h
    rw [sincNormal, sincAdvance_extend xs s.pos s.buf ha ys]
    simp only [Prod.mk.injEq] at h ⊢
    exact ⟨h.1, h.2.1, by rw [← h.2.2]⟩

theorem sincNormal_drain {s : SincConv K} {xs : List K} {s1 : SincConv K}
    {r : List K} (h : sincNormal s xs = (none, s1, r)) :
    r = [] ∧ ∀ ys, sincNormal s (xs ++ ys) = sincStep s1 ys := by
  rcases ha : sincAdvance s.denom xs s.pos s.buf with ⟨p, b, r', fl⟩
  cases fl
  case true => rw [sincNormal, ha] at h; simp at h
  case false =>
  rw [sincNormal, ha] at h
  simp only [Prod.mk.injEq] at h
  obtain ⟨_, hs1, hr⟩ := h
  obtain ⟨hr', hresume⟩ := sincAdvance_drain xs s.pos s.buf ha
  refine ⟨hr.symm, ?_⟩
  intro ys
  cases ys with
  | nil =>
    rw [List.append_nil, sincNormal, ha, ← hs1]
    simp only [sincStep.eq_def]
  | cons y t =>
    rw [← hs1]
    simp only [sincStep.eq_def]
    rw [sincNormal, hresume y t]
    simp only [sincNormal]

theorem sincStep_extend : StepExtend (sincStep (K := K)) := by
  intro s xs v s1 rest ys h
  match hs : s.state with
  | .normal =>
    simp only [sincStep.eq_def, hs] at h ⊢
    exact sincNormal_extend h ys
  | .suspend =>
    simp only [sincStep.eq_def, hs] at h ⊢
    cases xs with
    | nil => simp at h
    | cons x t =>
      rw [List.cons_append]
      exact sincNormal_extend h ys

theorem sincStep_drain : StepDrain (sincStep (K := K)) := by
  intro s xs s1 rest h
  match hs : s.state with
  | .normal =>
    simp only [sincStep.eq_def, hs] at h
    obtain ⟨hr, hres⟩ := sincNormal_drain h
    refine ⟨hr, ?_⟩
    intro ys
    simp only [sincStep.eq_def, hs]
    exact hres ys
  | .suspend =>
    simp only [sincStep.eq_def, hs] at h
    cases xs with
    | nil =>
      simp only [Prod.mk.injEq] at h
      obtain ⟨_, hs1, hr⟩ := h
      refine ⟨hr.symm, ?_⟩
      intro ys
      rw [List.nil_append, ← hs1]
    | cons x t =>
      obtain ⟨hr, hres⟩ := sincNormal_drain h
      refine ⟨hr, ?_⟩
      intro ys
      rw [List.cons_append]
      simp only [sincStep.eq_def, hs]
      exact hres ys

theorem linAdvance_done_lt {d : Nat} :
    ∀ (xs : List K) (pos : Nat) (l0 l1 : K) {p : Nat} {a b : K} {r : List K},
      linAdvance d xs pos l0 l1 = (p, a, b, r, true) → p < d := by
  intro xs
  induction xs with
  | nil =>
    intro pos l0 l1 p a b r h
    by_cases hp : pos < d
    · simp only [linAdvance, if_pos hp, Prod.mk.injEq] at h
      omega
    · simp [linAdvance, hp] at h
  | cons x t ih =>
    intro pos l0 l1 p a b r h
    by_cases hp : pos < d
    · simp only [linAdvance, if_pos hp, Prod.mk.injEq] at h
      omega
    · simp only [linAdvance, if_neg hp] at h
      exact ih (pos - d) l1 x h

theorem linFloatAdvance_done_bounds :
    ∀ (xs : List K) (pos : K) (l0 l1 : K) {p a b : K} {r : List K},
      0 ≤ pos → linFloatAdvance xs pos l0 l1 = (p, a, b, r, true) → 0 ≤ p ∧ p < 1 := by
  intro xs
  induction xs with
  | nil =>
    intro pos l0 l1 p a b r hpos h
    by_cases hp : pos < 1
    · simp only [linFloatAdvance, if_pos hp, Prod.mk.injEq] at h
      obtain ⟨h1, _⟩ := h
      subst h1
      exact ⟨hpos, hp⟩
    · simp [linFloatAdvance, hp] at h
  | cons x t ih =>
    intro pos l0 l1 p a b r hpos h
    by_cases hp : pos < 1
    · simp only [linFloatAdvance, if_pos hp, Prod.mk.injEq] at h
      obtain ⟨h1, _⟩ := h
      subst h1
      exact ⟨hpos, hp⟩
    · simp only [linFloatAdvance, if_neg hp] at h
      have : (0 : K) ≤ pos - 1 := by
        have := not_lt.mp hp
        linarith
      exact ih (pos - 1) l1 x this h

theorem sincAdvance_done_lt {d : Nat} :
    ∀ (xs : List K) (pos : Nat) (buf : List K) {p : Nat} {b r : List K},
      sincAdvance d xs pos buf = (p, b, r, true) → p < d := by
  intro xs
  induction xs with
  | nil =>
    intro pos buf p b r h
    by_cases hp : pos < d
    · simp only [sincAdvance, if_pos hp, Prod.mk.injEq] at h
      omega
    · simp [sincAdvance, hp] at h
  | cons x t ih =>
    intro pos buf p b r h
    by_cases hp : pos < d
    · simp only [sincAdvance, if_pos hp, Prod.mk.injEq] at h
      omega
    · simp only [sincAdvance, if_neg hp] at h
      exact ih (pos - d) (buf.tail ++ [x]) h

theorem sub_mod_self_of_le {pos d : Nat} (h : d ≤ pos) : (pos - d) % d = pos % d := by
  conv_rhs => rw [← Nat.sub_add_cancel h]
  rw [Nat.add_mod_right]

theorem sincAdvance_pos_mod {d : Nat} :
    ∀ (xs : List K) (pos : Nat) (buf : List K) {p : Nat} {b r : List K} {fl : Bool},
      sincAdvance d xs pos buf = (p, b, r, fl) → p % d = pos % d := by
  intro xs
  induction xs with
  | nil =>
    intro pos buf p b r fl h
    by_cases hp : pos < d
    · simp only [sincAdvance, if_pos hp, Prod.mk.injEq] at h
      rw [← h.1]
    · simp only [sincAdvance, if_neg hp, Prod.mk.injEq] at h
      rw [← h.1]
      exact sub_mod_self_of_le (le_of_not_lt hp)
  | cons x t ih =>
    intro pos buf p b r fl h
    by_cases hp : pos < d
    · simp only [sincAdvance, if_pos hp, Prod.mk.injEq] at h
      rw [← h.1]
    · simp only [sincAdvance, if_neg hp] at h
      rw [ih (pos - d) (buf.tail ++ [x]) h]
      exact sub_mod_self_of_le (le_of_not_lt hp)

theorem sincAdvance_buf_len {d : Nat} :
    ∀ (xs : List K) (pos : Nat) (buf : List K) {p : Nat} {b r : List K} {fl : Bool},
      sincAdvance d xs pos buf = (p, b, r, fl) → 1 ≤ buf.length → b.length = buf.length := by
  intro xs
  induction xs with
  | nil =>
    intro pos buf p b r fl h _
    by_cases hp : pos < d
    · simp only [sincAdvance, if_pos hp, Prod.mk.injEq] at h
      obtain ⟨_, h2, _⟩ := h
      rw [← h2]
    · simp only [sincAdvance, if_neg hp, Prod.mk.injEq] at h
      obtain ⟨_, h2, _⟩ := h
      rw [← h2]
  | cons x t ih =>
    intro pos buf p b r fl h hlen
    by_cases hp : pos < d
    · simp only [sincAdvance, if_pos hp, Prod.mk.injEq] at h
      obtain ⟨_, h2, _⟩ := h
      rw [← h2]
    · simp only [sincAdvance, if_neg hp] at h
      have hlen' : (buf.tail ++ [x]).length = buf.length := by
        simp [List.length_tail]
        omega
      have := ih (pos - d) (buf.tail ++ [x]) h (by omega)
      omega

/-- Phase-evolution of one `sinc` call: the residue of `pos` modulo `denom` is
carried through the advance loop, and a call that emits a sample adds `numer`
to it. The structural fields are untouched. -/
theorem sincStep_phase {s : SincConv K} {xs : List K} {o : Option K}
    {s1 : SincConv K} {r : List K} (h : sincStep s xs = (o, s1, r)) :
    s1.denom = s.denom ∧ s1.numer = s.numer ∧
      s1.pos % s.denom =
        (if o.isSome then s.pos + s.numer else s.pos) % s.denom := by
  have main : ∀ (t : SincConv K) (zs : List K), t.denom = s.denom → t.numer = s.numer →
      t.pos % s.denom = s.pos % s.denom → sincNormal t zs = (o, s1, r) →
      s1.denom = s.denom ∧ s1.numer = s.numer ∧
        s1.pos % s.denom = (if o.isSome then s.pos + s.numer else s.pos) % s.denom := by
    intro t zs htd htn htp hN
    rcases ha : sincAdvance t.denom zs t.pos t.buf with ⟨p, b, r', fl⟩
    have hmod := sincAdvance_pos_mod zs t.pos t.buf ha
    rw [htd] at hmod
    cases fl
    · rw [sincNormal, ha] at hN
      simp only [Prod.mk.injEq] at hN
      obtain ⟨ho, hs1, _⟩ := hN
      subst ho
      refine ⟨?_, ?_, ?_⟩
      · rw [← hs1]; exact htd
      · rw [← hs1]; exact htn
      · rw [← hs1]
        simp only [Option.isSome_none, Bool.false_eq_true, if_false]
        show p % s.denom = s.pos % s.denom
        rw [hmod, htp]
    · rw [sincNormal, ha] at hN
      simp only [Prod.mk.injEq] at hN
      obtain ⟨ho, hs1, _⟩ := hN
      subst ho
      refine ⟨?_, ?_, ?_⟩
      · rw [← hs1]; exact htd
      · rw [← hs1]; exact htn
      · rw [← hs1]
        simp only [Option.isSome_some, if_true]
        show (p + t.numer) % s.denom = (s.pos + s.numer) % s.denom
        rw [htn]
        exact Nat.ModEq.add_right s.numer (hmod.trans htp)
  match hs : s.state with
  | .normal =>
    simp only [sincStep.eq_def, hs] at h
    exact main s xs rfl rfl rfl h
  | .suspend =>
    simp only [sincStep.eq_def, hs] at h
    cases xs with
    | nil =>
      simp only [Prod.mk.injEq] at h
      obtain ⟨ho, hs1, _⟩ := h
      subst ho
      rw [← hs1]
      simp
    | cons x t =>
      exact main { s with buf := s.buf.tail ++ [x], state := .normal } t rfl rfl rfl h

/-- Phase evolution over a driven run: each emitted sample adds `numer` to the
phase residue modulo `denom`. -/
theorem produce_sinc_phase :
    ∀ (n : Nat) (s : SincConv K) (xs : List K) {outs : List K} {s1 : SincConv K}
      {r : List K},
      produce sincStep n s xs = (outs, s1, r) →
      s1.denom = s.denom ∧ s1.numer = s.numer ∧
        s1.pos % s.denom = (s.pos + outs.length * s.numer) % s.denom := by
  intro n
  induction n with
  | zero =>
    intro s xs outs s1 r h
    simp only [produce, Prod.mk.injEq] at h
    obtain ⟨ho, hs1, _⟩ := h
    subst ho
    rw [← hs1]
    simp
  | succ n ih =>
    intro s xs outs s1 r h
    rcases hst : sincStep s xs with ⟨o, sA, restA⟩
    obtain ⟨hd, hn, hp⟩ := sincStep_phase hst
    cases o with
    | some v =>
      rw [produce_succ_of_some _ hst n] at h
      rcases hq : produce sincStep n sA restA with ⟨o1', s1', r1'⟩
      rw [hq] at h
      simp only [Prod.mk.injEq] at h
      obtain ⟨ho, hs1, _⟩ := h
      obtain ⟨hd', hn', hp'⟩ := ih sA restA hq
      subst ho
      rw [← hs1]
      rw [hd, hn] at hp'
      simp only [Option.isSome_some, if_true] at hp
      refine ⟨hd'.trans hd, hn'.trans hn, ?_⟩
      simp only [List.length_cons]
      have h1 : (sA.pos + o1'.length * s.numer) % s.denom =
          (s.pos + s.numer + o1'.length * s.numer) % s.denom :=
        Nat.ModEq.add_right (o1'.length * s.numer) hp
      have h2 : s.pos + s.numer + o1'.length * s.numer =
          s.pos + (o1'.length + 1) * s.numer := by ring
      rw [hp', h1, h2]
    | none =>
      rw [produce_succ_of_none _ hst n] at h
      simp only [Prod.mk.injEq] at h
      obtain ⟨ho, hs1, _⟩ := h
      subst ho
      rw [← hs1]
      simp only [Option.isSome_none, Bool.false_eq_true, if_false] at hp
      simp only [List.length_nil, Nat.zero_mul, Nat.add_zero]
      exact ⟨hd, hn, hp⟩

/-- Phase bound for `RationalFastConverter`: a call that emits a sample read
its interpolation coefficient at a phase `< denom`; the stored `pos` right
after the call is that phase plus `numer`. -/
theorem linFastStep_some_phase {s : LinFast K} {xs : List K} {v : K} {s1 : LinFast K}
    {r : List K} (h : linFastStep s xs = (some v, s1, r)) :
    s1.numer = s.numer ∧ s1.denom = s.denom ∧
      s.numer ≤ s1.pos ∧ s1.pos - s.numer < s1.denom := by
  have main : ∀ (t : LinFast K) (zs : List K), t.numer = s.numer → t.denom = s.denom →
      linFastNormal t zs = (some v, s1, r) →
      s1.numer = s.numer ∧ s1.denom = s.denom ∧
        s.numer ≤ s1.pos ∧ s1.pos - s.numer < s1.denom := by
    intro t zs htn htd hN
    rcases ha : linAdvance t.denom zs t.pos t.last0 t.last1 with ⟨p, a, b, r', fl⟩
    cases fl
    · rw [linFastNormal, ha] at hN; simp at hN
    · have hlt := linAdvance_done_lt zs t.pos t.last0 t.last1 ha
      rw [linFastNormal, ha] at hN
      simp only [Prod.mk.injEq] at hN
      obtain ⟨_, hs1, _⟩ := hN
      rw [← hs1]
      refine ⟨htn, htd, ?_, ?_⟩
      · show s.numer ≤ p + t.numer
        omega
      · show p + t.numer - s.numer < t.denom
        omega
  match hs : s.state with
  | .normal =>
    simp only [linFastStep.eq_def, hs] at h
    exact main s xs rfl rfl h
  | .first =>
    simp only [linFastStep.eq_def, hs] at h
    cases xs with
    | nil => simp at h
    | cons x t =>
      exact main { s with last1 := x, pos := s.numer, state := .normal } t rfl rfl h
  | .suspend =>
    simp only [linFastStep.eq_def, hs] at h
    cases xs with
    | nil => simp at h
    | cons x t =>
      exact main { s with last1 := x, state := .normal } t rfl rfl h

/-- Phase bound for `RationalConverter`, as for the fast variant. -/
theorem linRatStep_some_phase {s : LinRat K} {xs : List K} {v : K} {s1 : LinRat K}
    {r : List K} (h : linRatStep s xs = (some v, s1, r)) :
    s1.numer = s.numer ∧ s1.denom = s.denom ∧
      s.numer ≤ s1.pos ∧ s1.pos - s.numer < s1.denom := by
  have main : ∀ (t : LinRat K) (zs : List K), t.numer = s.numer → t.denom = s.denom →
      linRatNormal t zs = (some v, s1, r) →
      s1.numer = s.numer ∧ s1.denom = s.denom ∧
        s.numer ≤ s1.pos ∧ s1.pos - s.numer < s1.denom := by
    intro t zs htn htd hN
    rcases ha : linAdvance t.denom zs t.pos t.last0 t.last1 with ⟨p, a, b, r', fl⟩
    cases fl
    · rw [linRatNormal, ha] at hN; simp at hN
    · have hlt := linAdvance_done_lt zs t.pos t.last0 t.last1 ha
      rw [linRatNormal, ha] at hN
      simp only [Prod.mk.injEq] at hN
      obtain ⟨_, hs1, _⟩ := hN
      rw [← hs1]
      refine ⟨htn, htd, ?_, ?_⟩
      · show s.numer ≤ p + t.numer
        omega
      · show p + t.numer - s.numer < t.denom
        omega
  match hs : s.state with
  | .normal =>
    simp only [linRatStep.eq_def, hs] at h
    exact main s xs rfl rfl h
  | .first =>
    simp only [linRatStep.eq_def, hs] at h
    cases xs with
    | nil => simp at h
    | cons x t =>
      exact main { s with last1 := x, pos := s.numer, state := .normal } t rfl rfl h
  | .suspend =>
    simp only [linRatStep.eq_def, hs] at h
    cases xs with
    | nil => simp at h
    | cons x t =>
      exact main { s with last1 := x, state := .normal } t rfl rfl h

/-- Phase bound for `FloatConverter`: a call that emits a sample read its
interpolation coefficient at a phase in `[0, 1)`; the stored `pos` right
after the call is that phase plus `step`. -/
theorem linFloatStep_some_phase {s : LinFloat K} {xs : List K} {v : K} {s1 : LinFloat K}
    {r : List K} (hpos : 0 ≤ s.pos) (h : linFloatStep s xs = (some v, s1, r)) :
    s1.step = s.step ∧ 0 ≤ s1.pos - s.step ∧ s1.pos - s.step < 1 := by
  have main : ∀ (t : LinFloat K) (zs : List K), t.step = s.step → 0 ≤ t.pos →
      linFloatNormal t zs = (some v, s1, r) →
      s1.step = s.step ∧ 0 ≤ s1.pos - s.step ∧ s1.pos - s.step < 1 := by
    intro t zs hts htp hN
    rcases ha : linFloatAdvance zs t.pos t.last0 t.last1 with ⟨p, a, b, r', fl⟩
    cases fl
    · rw [linFloatNormal, ha] at hN; simp at hN
    · obtain ⟨hp0, hp1⟩ := linFloatAdvance_done_bounds zs t.pos t.last0 t.last1 htp ha
      rw [linFloatNormal, ha] at hN
      simp only [Prod.mk.injEq] at hN
      obtain ⟨_, hs1, _⟩ := hN
      rw [← hs1]
      refine ⟨hts, ?_, ?_⟩
      · show (0 : K) ≤ p + t.step - s.step
        rw [hts]; linarith
      · show p + t.step - s.step < 1
        rw [hts]; linarith
  match hs : s.state with
  | .normal =>
    simp only [linFloatStep.eq_def, hs] at h
    exact main s xs rfl hpos h
  | .first =>
    simp only [linFloatStep.eq_def, hs] at h
    cases xs with
    | nil => simp at h
    | cons x t =>
      exact main { s with last1 := x, pos := 1, state := .normal } t rfl zero_le_one h
  | .suspend =>
    simp only [linFloatStep.eq_def, hs] at h
    cases xs with
    | nil => simp at h
    | cons x t =>
      exact main { s with last1 := x, state := .normal } t rfl hpos h

/-- Phase bound for the sinc `Converter`, as for the rational linear ones. -/
theorem sincStep_some_phase {s : SincConv K} {xs : List K} {v : K} {s1 : SincConv K}
    {r : List K} (h : sincStep s xs = (some v, s1, r)) :
    s1.numer = s.numer ∧ s1.denom = s.denom ∧
      s.numer ≤ s1.pos ∧ s1.pos - s.numer < s1.denom := by
  have main : ∀ (t : SincConv K) (zs : List K), t.numer = s.numer → t.denom = s.denom →
      sincNormal t zs = (some v, s1, r) →
      s1.numer = s.numer ∧ s1.denom = s.denom ∧
        s.numer ≤ s1.pos ∧ s1.pos - s.numer < s1.denom := by
    intro t zs htn htd hN
    rcases ha : sincAdvance t.denom zs t.pos t.buf with ⟨p, b, r', fl⟩
    cases fl
    · rw [sincNormal, ha] at hN; simp at hN
    · have hlt := sincAdvance_done_lt zs t.pos t.buf ha
      rw [sincNormal, ha] at hN
      simp only [Prod.mk.injEq] at hN
      obtain ⟨_, hs1, _⟩ := hN
      rw [← hs1]
      refine ⟨htn, htd, ?_, ?_⟩
      · show s.numer ≤ p + t.numer
        omega
      · show p + t.numer - s.numer < t.denom
        omega
  match hs : s.state with
  | .normal =>
    simp only [sincStep.eq_def, hs] at h
    exact main s xs rfl rfl h
  | .suspend =>
    simp only [sincStep.eq_def, hs] at h
    cases xs with
    | nil => simp at h
    | cons x t =>
      exact main { s with buf := s.buf.tail ++ [x], state := .normal } t rfl rfl h

theorem accTapD_zero {filter buf : List K} {posx : K} {posu pos_max idx : Nat} {acc : K}
    (hb : buf.getD idx 0 = 0) :
    accTapD filter buf posx posu pos_max idx acc = acc := by
  unfold accTapD
  by_cases hp : posu < pos_max
  · rw [if_pos hp, hb]; ring
  · rw [if_neg hp]

theorem interpLoop_zero {filter buf : List K} {qk c : K} {pm : Nat}
    (hb : ∀ i, buf.getD i 0 = 0) :
    ∀ (n left right : Nat), interpLoop filter buf qk c pm n left right 0 = 0 := by
  intro n
  induction n with
  | zero => intro l r; rfl
  | succ n ih =>
    intro l r
    simp only [interpLoop]
    rw [accTapD_zero (hb l), accTapD_zero (hb r)]
    exact ih _ _

/-- `Converter::interpolate` on an all-zero ring buffer returns exactly 0. -/
theorem interpolate_zero_buf {s : SincConv K} (hb : ∀ i, s.buf.getD i 0 = 0) :
    interpolate s = 0 := by
  rw [interpolate]
  by_cases hodd : s.buf.length % 2 = 1
  · simp only [if_pos hodd, hb, zero_mul]
    exact interpLoop_zero hb _ _ _
  · simp only [if_neg hodd]
    exact interpLoop_zero hb _ _ _

theorem getD_replicate_zero (n : Nat) : ∀ i, (List.replicate n (0 : K)).getD i 0 = 0 := by
  intro i
  induction n generalizing i with
  | zero => simp
  | succ n ih =>
    cases i with
    | zero => simp [List.replicate]
    | succ i => simpa [List.replicate] using ih i

/-- The first call on a freshly minted sinc converter: the phase starts at 0,
which is below `denom` (every `ℚ` denominator is positive), so the advance
loop pulls nothing, and the all-zero ring buffer interpolates to exactly 0. -/
theorem sincConvNew_first_call (step : ℚ) (order quan : Nat) (filter : List K)
    (xs : List K) :
    sincStep (sincConvNew K step order quan filter) xs =
      (some 0, { sincConvNew K step order quan filter with pos := step.num.toNat }, xs) := by
  have hden : 0 < step.den := step.den_pos
  have hadv : sincAdvance (K := K) step.den xs 0 (List.replicate (order + 1) 0) =
      (0, List.replicate (order + 1) 0, xs, true) := by
    rw [sincAdvance.eq_def]
    simp [hden]
  rw [sincStep.eq_def]
  show sincNormal (sincConvNew K step order quan filter) xs = _
  rw [sincNormal]
  show (match sincAdvance step.den xs 0 (List.replicate (order + 1) 0) with
    | (pos, buf, rest, true) =>
      let s1 := { sincConvNew K step order quan filter with
        pos := pos, buf := buf, state := SState.normal }
      (some (interpolate s1), { s1 with pos := pos + (sincConvNew K step order quan filter).numer }, rest)
    | (pos, buf, _, false) =>
      (none, { sincConvNew K step order quan filter with
        pos := pos, buf := buf, state := SState.suspend }, [])) = _
  rw [hadv]
  simp [sincConvNew]
  exact interpolate_zero_buf (fun i => getD_replicate_zero (order + 1) i)

end StepLemmas

section BesselLemmas

variable {K : Type} [LinearOrderedField K]

theorem besselTerm_succ (x : K) (k : Nat) :
    ((x / 2) ^ (k + 1) / (Nat.factorial (k + 1) : K)) ^ 2 =
      ((x / 2) ^ k / (Nat.factorial k : K)) ^ 2 * (x / (2 * ((k + 1 : Nat) : K))) ^ 2 := by
  have hk : (Nat.factorial k : K) ≠ 0 := Nat.cast_ne_zero.mpr (Nat.factorial_ne_zero k)
  have hk1 : ((k + 1 : Nat) : K) ≠ 0 := Nat.cast_ne_zero.mpr (Nat.succ_ne_zero k)
  rw [Nat.factorial_succ]
  push_cast
  field_simp
  ring

theorem besselGo_eq_specAux (x : K) :
    ∀ (fuel k : Nat) (y : K), 1 ≤ k →
      besselGo x fuel k (((x / 2) ^ (k - 1) / (Nat.factorial (k - 1) : K)) ^ 2) y =
        y + besselI0SpecAux x fuel k := by
  intro fuel
  induction fuel with
  | zero =>
    intro k y _
    simp [besselGo, besselI0SpecAux]
  | succ fuel ih =>
    intro k y hk
    obtain ⟨j, rfl⟩ : ∃ j, k = j + 1 := ⟨k - 1, by omega⟩
    have hterm : ((x / 2) ^ (j + 1 - 1) / (Nat.factorial (j + 1 - 1) : K)) ^ 2 *
        (x / (2 * ((j + 1 : Nat) : K))) ^ 2 =
        ((x / 2) ^ (j + 1) / (Nat.factorial (j + 1) : K)) ^ 2 := by
      simp only [Nat.add_sub_cancel]
      exact (besselTerm_succ x j).symm
    simp only [besselGo, besselI0SpecAux]
    push_cast
    push_cast at hterm
    rw [hterm]
    by_cases hsmall : ((x / 2) ^ (j + 1) / (Nat.factorial (j + 1) : K)) ^ 2 < 1 / 10 ^ 10
    · rw [if_pos hsmall, if_pos hsmall]
    · rw [if_neg hsmall, if_neg hsmall]
      have := ih (j + 2) (y + ((x / 2) ^ (j + 1) / (Nat.factorial (j + 1) : K)) ^ 2)
        (by omega)
      simp only [Nat.add_sub_cancel] at this
      push_cast at this
      rw [this, add_assoc]

/-- `bessel_i0` computes exactly the spec's truncated power series. -/
theorem bessel_i0_eq_spec_of_nonneg (x : K) (_ : 0 ≤ x) :
    bessel_i0 x = besselI0Spec x := by
  have h0 : (((x / 2) ^ (1 - 1 : Nat) / (Nat.factorial (1 - 1) : K)) ^ 2) = 1 := by
    norm_num
  have h := besselGo_eq_specAux x 31 1 1 le_rfl
  rw [h0] at h
  rw [bessel_i0, h, besselI0Spec]
  have hbig : ¬ (((x / 2) ^ (0 : Nat) / (Nat.factorial 0 : K)) ^ 2 < 1 / 10 ^ 10) := by
    norm_num
  simp only [besselI0SpecAux, if_neg hbig]
  norm_num

theorem besselGo_ge (x : K) :
    ∀ (fuel k : Nat) (t y : K), 0 ≤ t → y ≤ besselGo x fuel k t y := by
  intro fuel
  induction fuel with
  | zero => intro k t y _; simp [besselGo]
  | succ fuel ih =>
    intro k t y ht
    simp only [besselGo]
    have ht1 : 0 ≤ t * (x / (2 * (k : K))) ^ 2 := mul_nonneg ht (sq_nonneg _)
    by_cases hsmall : t * (x / (2 * (k : K))) ^ 2 < 1 / 10 ^ 10
    · rw [if_pos hsmall]; linarith
    · rw [if_neg hsmall]
      calc y ≤ y + t * (x / (2 * (k : K))) ^ 2 := by linarith
        _ ≤ _ := ih (k + 1) _ _ ht1

/-- `bessel_i0` is at least 1: the leading term of the series is 1 and every
further term is a square. -/
theorem one_le_bessel_i0 (x : K) : 1 ≤ bessel_i0 x :=
  besselGo_ge x 31 1 1 1 zero_le_one

end BesselLemmas

section FilterTableLemmas

theorem generate_filter_table_length (quan order : Nat) (beta cutoff : ℝ) :
    (generate_filter_table quan order beta cutoff).length = order * quan / 2 + 1 := by
  rw [generate_filter_table]
  rw [List.length_append, List.length_map, List.length_range, List.length_singleton]

theorem generate_filter_table_head (quan order : Nat) (beta cutoff : ℝ)
    (hlen : 1 ≤ order * quan / 2) :
    (generate_filter_table quan order beta cutoff).getD 0 0 = cutoff := by
  have hne : bessel_i0 (beta : ℝ) ≠ 0 := by
    have := one_le_bessel_i0 (K := ℝ) beta
    linarith
  rw [generate_filter_table]
  rw [List.getD_eq_getElem?_getD]
  rw [List.getElem?_append]
  rw [if_pos (by rw [List.length_map, List.length_range]; omega :
    0 < ((List.range (order * quan / 2)).map fun (i : Nat) =>
      let pos := (i : ℝ) / (quan : ℝ)
      let i0_1 := bessel_i0 (beta * Real.sqrt (1 - (pos / ((order : ℝ) * 0.5)) ^ 2))
      sinc_c pos cutoff * (i0_1 / bessel_i0 beta)).length)]
  rw [List.getElem?_map]
  rw [List.getElem?_range (by omega)]
  simp [sinc_c, Real.sqrt_one, div_self hne]

theorem generate_filter_table_last (quan order : Nat) (beta cutoff : ℝ) :
    (generate_filter_table quan order beta cutoff).getLast? = some 0 := by
  simp [generate_filter_table]

end FilterTableLemmas

section CheckedLemmas

variable {K : Type} [LinearOrderedField K] [FloorRing K]

theorem get?_eq_some_getD {l : List K} {i : Nat} (h : i < l.length) :
    l.get? i = some (l.getD i 0) := by
  rw [List.get?_eq_getElem?, List.getElem?_eq_getElem h, List.getD_eq_getElem?_getD,
    List.getElem?_eq_getElem h]
  rfl

theorem coefTable_length (d : Nat) : (coefTable K d).length = d := by
  simp [coefTable]

theorem coefTable_getD {d p : Nat} (h : p < d) :
    (coefTable K d).getD p 0 = (p : K) / (d : K) := by
  rw [List.getD_eq_getElem?_getD, coefTable, List.getElem?_map, List.getElem?_range h]
  rfl

theorem coefTable_getD_bounds {d p : Nat} (hd : 1 ≤ d) (h : p < d) :
    0 ≤ (coefTable K d).getD p 0 ∧ (coefTable K d).getD p 0 < 1 := by
  rw [coefTable_getD h]
  constructor
  · positivity
  · rw [div_lt_one (by exact_mod_cast hd : (0 : K) < (d : K))]
    exact_mod_cast h

theorem accTap_eq {filter buf : List K} {posx : K} {posu pos_max idx : Nat} {acc : K}
    (hf : pos_max + 1 = filter.length) (hidx : idx < buf.length) :
    accTap filter buf posx posu pos_max idx acc =
      some (accTapD filter buf posx posu pos_max idx acc) := by
  rw [accTap, accTapD]
  by_cases hp : posu < pos_max
  · rw [if_pos hp, if_pos hp]
    rw [get?_eq_some_getD (l := filter) (i := posu) (by omega),
      get?_eq_some_getD (l := filter) (i := posu + 1) (by omega),
      get?_eq_some_getD (l := buf) hidx]
  · rw [if_neg hp, if_neg hp]

theorem interpLoopChecked_eq {filter buf : List K} {qk c : K} {pm : Nat}
    (hf : pm + 1 = filter.length) (hbufU : buf.length < USIZE) :
    ∀ (n left right : Nat) (acc : K), n ≤ left + 1 → left < buf.length →
      right + n ≤ buf.length →
      interpLoopChecked filter buf qk c pm n left right acc =
        some (interpLoop filter buf qk c pm n left right acc) := by
  intro n
  induction n with
  | zero => intro left right acc _ _ _; rfl
  | succ n ih =>
    intro left right acc hn hl hr
    have hr' : right < buf.length := by omega
    simp only [interpLoopChecked, interpLoop, accTap_eq hf hl, accTap_eq hf hr']
    by_cases hn0 : n = 0
    · subst hn0; rfl
    · have hleft1 : 1 ≤ left := by omega
      have hmodl : (left + (USIZE - 1)) % USIZE = left - 1 := by
        have h1 : left + (USIZE - 1) = (left - 1) + USIZE := by
          have : 0 < USIZE := by rw [USIZE]; positivity
          omega
        rw [h1, Nat.add_mod_right, Nat.mod_eq_of_lt (by omega)]
      have hmodr : (right + 1) % USIZE = right + 1 :=
        Nat.mod_eq_of_lt (by omega)
      rw [hmodl, hmodr]
      exact ih _ _ _ (by omega) (by omega) (by omega)

theorem interpolateChecked_eq {s : SincConv K} {order quan : Nat}
    (wf : SincWF s order quan) (hpos : s.pos < s.denom) :
    interpolateChecked s = some (interpolate s) := by
  have hclen : s.coefs.length = s.denom := by rw [wf.hcoefs, coefTable_length]
  have hget : s.coefs.get? s.pos = some (s.coefs.getD s.pos 0) :=
    get?_eq_some_getD (by omega)
  obtain ⟨hc0, hc1⟩ : 0 ≤ s.coefs.getD s.pos 0 ∧ s.coefs.getD s.pos 0 < 1 := by
    rw [wf.hcoefs]
    exact coefTable_getD_bounds wf.hd hpos
  have hf : (s.filter.length - 1) + 1 = s.filter.length := by
    rw [wf.hfil]; omega
  have hbufU : s.buf.length < USIZE := by
    have h2 := wf.ho2
    have hb := wf.hbuf
    have : (2 : Nat) ^ 64 = 18446744073709551616 := by norm_num
    rw [USIZE, this]
    omega
  have htaps2 : 2 ≤ s.buf.length := by
    have := wf.ho1
    rw [wf.hbuf]
    omega
  simp only [interpolateChecked, interpolate, hget]
  by_cases hodd : s.buf.length % 2 = 1
  · rw [if_pos hodd, if_pos hodd]
    have heven : order % 2 = 0 := by
      have := wf.hbuf
      omega
    have ho2 : 2 ≤ order := by
      have := wf.ho1
      omega
    have hquanpos : (0 : K) < (quan : K) := by exact_mod_cast wf.hq1
    have hp_lt : s.coefs.getD s.pos 0 * s.quan < (quan : K) := by
      rw [wf.hquan]
      calc s.coefs.getD s.pos 0 * (quan : K) < 1 * (quan : K) :=
            mul_lt_mul_of_pos_right hc1 hquanpos
        _ = (quan : K) := one_mul _
    have hfloor : ⌊s.coefs.getD s.pos 0 * s.quan⌋ < (quan : ℤ) := by
      rw [Int.floor_lt]
      exact_mod_cast hp_lt
    have hpu : f2u (s.coefs.getD s.pos 0 * s.quan) < quan := by
      have hq1 := wf.hq1
      rw [f2u]
      have h1 : (⌊s.coefs.getD s.pos 0 * s.quan⌋).toNat < quan := by omega
      omega
    have hposmax : quan ≤ s.filter.length - 1 := by
      rw [wf.hfil]
      obtain ⟨k, hk⟩ : ∃ k, order = 2 * k := ⟨order / 2, by omega⟩
      have hdiv : order * quan / 2 = k * quan := by
        rw [hk, mul_assoc, Nat.mul_div_cancel_left _ (by norm_num : 0 < 2)]
      rw [hdiv]
      have hk1 : 1 ≤ k := by omega
      calc quan = 1 * quan := (one_mul _).symm
        _ ≤ k * quan := Nat.mul_le_mul_right _ hk1
        _ ≤ k * quan + 1 - 1 := by omega
    have hpu_lt : f2u (s.coefs.getD s.pos 0 * s.quan) < s.filter.length - 1 :=
      lt_of_lt_of_le hpu hposmax
    rw [get?_eq_some_getD (l := s.filter)
        (i := f2u (s.coefs.getD s.pos 0 * s.quan)) (by omega),
      get?_eq_some_getD (l := s.filter)
        (i := f2u (s.coefs.getD s.pos 0 * s.quan) + 1) (by omega),
      get?_eq_some_getD (l := s.buf) (i := s.buf.length / 2) (by omega)]
    exact interpLoopChecked_eq hf hbufU _ _ _ _ (by omega) (by omega) (by omega)
  · rw [if_neg hodd, if_neg hodd]
    exact interpLoopChecked_eq hf hbufU _ _ _ _ (by omega) (by omega) (by omega)

theorem sincNormalChecked_eq {s : SincConv K} {order quan : Nat}
    (wf : SincWF s order quan) (xs : List K) :
    sincNormalChecked s xs = some (sincNormal s xs) ∧
      SincWF (sincNormal s xs).2.1 order quan := by
  rcases ha : sincAdvance s.denom xs s.pos s.buf with ⟨p, b, r', fl⟩
  have hblen : b.length = s.buf.length :=
    sincAdvance_buf_len xs s.pos s.buf ha (by rw [wf.hbuf]; omega)
  cases fl
  · rw [sincNormalChecked, sincNormal, ha]
    refine ⟨rfl, ?_⟩
    exact { ho1 := wf.ho1, ho2 := wf.ho2, hq1 := wf.hq1, hq2 := wf.hq2,
            hd := wf.hd, hcoefs := wf.hcoefs, hhalf := wf.hhalf, hquan := wf.hquan,
            hfil := wf.hfil, hbuf := hblen.trans wf.hbuf }
  · have hplt : p < s.denom := sincAdvance_done_lt xs s.pos s.buf ha
    have wf1 : SincWF ({ s with pos := p, buf := b, state := SState.normal } : SincConv K)
        order quan :=
      { ho1 := wf.ho1, ho2 := wf.ho2, hq1 := wf.hq1, hq2 := wf.hq2,
        hd := wf.hd, hcoefs := wf.hcoefs, hhalf := wf.hhalf, hquan := wf.hquan,
        hfil := wf.hfil, hbuf := hblen.trans wf.hbuf }
    refine ⟨?_, ?_⟩
    · rw [sincNormalChecked, sincNormal, ha]
      simp only [interpolateChecked_eq wf1 (show _ < _ from hplt)]
    · rw [sincNormal, ha]
      exact { ho1 := wf1.ho1, ho2 := wf1.ho2, hq1 := wf1.hq1, hq2 := wf1.hq2,
              hd := wf1.hd, hcoefs := wf1.hcoefs, hhalf := wf1.hhalf, hquan := wf1.hquan,
              hfil := wf1.hfil, hbuf := wf1.hbuf }

theorem sincStepChecked_eq {s : SincConv K} {order quan : Nat}
    (wf : SincWF s order quan) (xs : List K) :
    sincStepChecked s xs = some (sincStep s xs) ∧
      SincWF (sincStep s xs).2.1 order quan := by
  match hs : s.state with
  | .normal =>
    simp only [sincStepChecked.eq_def, sincStep.eq_def, hs]
    exact sincNormalChecked_eq wf xs
  | .suspend =>
    simp only [sincStepChecked.eq_def, sincStep.eq_def, hs]
    cases xs with
    | nil => exact ⟨rfl, wf⟩
    | cons x t =>
      have hb1 : 1 ≤ s.buf.length := by rw [wf.hbuf]; omega
      have wf' :
          SincWF ({ s with buf := s.buf.tail ++ [x], state := SState.normal } : SincConv K)
            order quan :=
        { ho1 := wf.ho1, ho2 := wf.ho2, hq1 := wf.hq1, hq2 := wf.hq2,
          hd := wf.hd, hcoefs := wf.hcoefs, hhalf := wf.hhalf, hquan := wf.hquan,
          hfil := wf.hfil, hbuf := by
            show (s.buf.tail ++ [x]).length = order + 1
            rw [List.length_append, List.length_tail, List.length_singleton]
            rw [wf.hbuf] at hb1 ⊢
            omega }
      exact sincNormalChecked_eq wf' t

theorem produceChecked_sinc_eq {order quan : Nat} :
    ∀ (n : Nat) (s : SincConv K) (xs : List K), SincWF s order quan →
      produceChecked sincStepChecked n s xs = some (produce sincStep n s xs) := by
  intro n
  induction n with
  | zero => intro s xs _; rfl
  | succ n ih =>
    intro s xs wf
    obtain ⟨heq, hwf⟩ := sincStepChecked_eq wf xs
    rcases hst : sincStep s xs with ⟨o, s1, r⟩
    rw [hst] at heq hwf
    cases o with
    | some v =>
      rw [produce_succ_of_some _ hst n]
      simp only [produceChecked, heq]
      rw [ih s1 r hwf]
    | none =>
      rw [produce_succ_of_none _ hst n]
      simp only [produceChecked, heq]

theorem with_raw_internal_ok {ratio : ℚ} {quan order : Nat} {beta cutoff : ℝ}
    {m : SincManager}
    (h : SincManager.with_raw_internal ratio quan order beta cutoff = .ok m) :
    m.ratio = ratio ∧ m.order = order ∧ m.quan = quan ∧
      m.filter = generate_filter_table quan order beta cutoff ∧
      m.latency = (roundf64 ((ratio : ℝ) * (order : ℝ) * 0.5)).toNat ∧
      supported_ratio ratio = true ∧
      1 ≤ quan ∧ quan ≤ 16384 ∧ 1 ≤ order ∧ order ≤ 2048 ∧
      0 ≤ beta ∧ beta ≤ 20 ∧ 0.01 ≤ cutoff ∧ cutoff ≤ 1 := by
  rw [SincManager.with_raw_internal] at h
  by_cases h1 : supported_ratio ratio = true
  · rw [if_pos h1] at h
    by_cases h2 : 1 ≤ quan ∧ quan ≤ 16384 ∧ 1 ≤ order ∧ order ≤ 2048 ∧
        0 ≤ beta ∧ beta ≤ 20 ∧ 0.01 ≤ cutoff ∧ cutoff ≤ 1
    · rw [if_pos h2] at h
      obtain ⟨hq1, hq2, ho1, ho2, hb1, hb2, hc1, hc2⟩ := h2
      injection h with hm
      rw [← hm]
      exact ⟨rfl, rfl, rfl, rfl, rfl, h1, hq1, hq2, ho1, ho2, hb1, hb2, hc1, hc2⟩
    · rw [if_neg h2] at h
      exact absurd h (by simp)
  · rw [if_neg h1] at h
    exact absurd h (by simp)

/-- A converter minted from a successfully constructed manager is wellformed. -/
theorem sincManager_converter_WF {ratio : ℚ} {quan order : Nat} {beta cutoff : ℝ}
    {m : SincManager}
    (h : SincManager.with_raw_internal ratio quan order beta cutoff = .ok m) :
    SincWF (m.converter) m.order m.quan := by
  obtain ⟨hr, ho, hq, hfil, _, hsupp, hq1, hq2, ho1, ho2, _⟩ := with_raw_internal_ok h
  refine { ho1 := ?_, ho2 := ?_, hq1 := ?_, hq2 := ?_, hd := ?_, hcoefs := rfl,
           hhalf := rfl, hquan := rfl, hfil := ?_, hbuf := ?_ }
  · rw [ho]; exact ho1
  · rw [ho]; exact ho2
  · rw [hq]; exact hq1
  · rw [hq]; exact hq2
  · exact (m.ratio⁻¹).den_pos
  · show m.filter.length = m.order * m.quan / 2 + 1
    rw [hfil, generate_filter_table_length, ho, hq]
  · show (List.replicate (m.order + 1) (0 : ℝ)).length = m.order + 1
    rw [List.length_replicate]

end CheckedLemmas

section DesignLemmas

theorem calc_kaiser_beta_mem {atten : ℝ} (h1 : 12 ≤ atten) (h2 : atten ≤ 180) :
    0 ≤ calc_kaiser_beta atten ∧ calc_kaiser_beta atten ≤ 20 := by
  rw [calc_kaiser_beta]
  by_cases hc : 50 < atten
  · rw [if_pos hc]
    constructor <;> nlinarith
  · rw [if_neg hc]
    by_cases hc2 : 21 ≤ atten
    · rw [if_pos hc2]
      have hx0 : (0 : ℝ) ≤ atten - 21 := by linarith
      have hx29 : atten - 21 ≤ 29 := by linarith
      have hnn : 0 ≤ (atten - 21) ^ (0.4 : ℝ) := Real.rpow_nonneg hx0 _
      have h29 : (atten - 21) ^ (0.4 : ℝ) ≤ (29 : ℝ) ^ (0.4 : ℝ) :=
        Real.rpow_le_rpow hx0 hx29 (by norm_num)
      have h29b : (29 : ℝ) ^ (0.4 : ℝ) ≤ (29 : ℝ) ^ (1 : ℝ) :=
        Real.rpow_le_rpow_of_exponent_le (by norm_num) (by norm_num)
      rw [Real.rpow_one] at h29b
      constructor
      · nlinarith
      · nlinarith
    · rw [if_neg hc2]
      norm_num

theorem calc_order_pos {ratio atten trans_width : ℝ} (hr : 0 < ratio)
    (ha : 12 ≤ atten) (ht : 0.01 ≤ trans_width) :
    1 ≤ calc_order ratio atten trans_width := by
  rw [calc_order]
  have hpi := Real.pi_pos
  have hm : 0 < min ratio 1 := lt_min hr one_pos
  have hd : 0 < 2.285 * trans_width * Real.pi * min ratio 1 := by positivity
  have hv : 0 < (atten - 8) / (2.285 * trans_width * Real.pi * min ratio 1) :=
    div_pos (by linarith) hd
  have hceil := Int.ceil_pos.mpr hv
  omega

theorem cutoff_mem {ratio trans_width : ℝ} (hr : 1 / 16 ≤ ratio)
    (ht1 : 0.01 ≤ trans_width) (ht2 : trans_width ≤ 1) :
    0.01 ≤ min ratio 1 * (1 - 0.5 * trans_width) ∧
      min ratio 1 * (1 - 0.5 * trans_width) ≤ 1 := by
  have hm1 : min ratio 1 ≤ 1 := min_le_right _ _
  have hm2 : (1 / 16 : ℝ) ≤ min ratio 1 := le_min hr (by norm_num)
  have h05 : (0.5 : ℝ) ≤ 1 - 0.5 * trans_width := by linarith
  constructor
  · calc (0.01 : ℝ) ≤ (1 / 16) * 0.5 := by norm_num
      _ ≤ min ratio 1 * (1 - 0.5 * trans_width) :=
        mul_le_mul hm2 h05 (by norm_num) (le_trans (by norm_num) hm2)
  · have hnn : (0 : ℝ) ≤ 1 - 0.5 * trans_width := by linarith
    calc min ratio 1 * (1 - 0.5 * trans_width) ≤ 1 * 1 :=
        mul_le_mul hm1 (by linarith) hnn (by norm_num)
      _ = 1 := one_mul 1

theorem supported_ratio_bounds {r : ℚ} (h : supported_ratio r = true) :
    0 < r ∧ (1 / 16 : ℚ) ≤ r ∧ r ≤ 16 := by
  rw [supported_ratio, decide_eq_true_eq] at h
  obtain ⟨h0, hc, hc', _⟩ := h
  refine ⟨h0, ?_, ?_⟩
  · have hinv : r⁻¹ ≤ (16 : ℚ) :=
      le_trans (Int.le_ceil _) (by exact_mod_cast hc')
    have hmul := mul_le_mul_of_nonneg_left hinv (le_of_lt h0)
    rw [mul_inv_cancel₀ (ne_of_gt h0)] at hmul
    linarith
  · exact le_trans (Int.le_ceil _) (by exact_mod_cast hc)

theorem calc_order_cex : 2048 < calc_order ((2 : ℚ) : ℝ) 180 0.01 := by
  rw [calc_order]
  have hmin : min ((2 : ℚ) : ℝ) 1 = 1 := by
    rw [min_eq_right]
    push_cast
    norm_num
  rw [hmin]
  have hpi := Real.pi_lt_315
  have hpipos := Real.pi_pos
  have hv : (2048 : ℝ) < (180 - 8) / (2.285 * 0.01 * Real.pi * 1) := by
    rw [lt_div_iff (by positivity)]
    nlinarith
  have hceil : (2048 : ℤ) < ⌈(180 - 8) / (2.285 * 0.01 * Real.pi * 1)⌉ :=
    Int.lt_ceil.mpr (by exact_mod_cast hv)
  omega

end DesignLemmas

theorem ceil_q_half : ⌈(1/2 : ℚ)⌉ = 1 := by
  rw [Int.ceil_eq_iff] <;> norm_num

theorem ceil_q_seventeen : ⌈(17 : ℚ)⌉ = 17 := by
  rw [Int.ceil_eq_iff] <;> norm_num

theorem ceil_q_twenty : ⌈(20 : ℚ)⌉ = 20 := by
  rw [Int.ceil_eq_iff] <;> norm_num

theorem supported_ratio_one : supported_ratio 1 = true := by
  rw [supported_ratio, decide_eq_true_eq]
  norm_num

theorem supported_ratio_two : supported_ratio 2 = true := by
  rw [supported_ratio, decide_eq_true_eq]
  norm_num [ceil_q_half]

theorem supported_ratio_seventeen : supported_ratio 17 = false := by
  rw [supported_ratio, decide_eq_false_iff_not]
  intro h
  obtain ⟨-, hc, -⟩ := h
  rw [ceil_q_seventeen] at hc
  omega

theorem supported_ratio_inv_twenty : supported_ratio (1/20) = false := by
  rw [supported_ratio, decide_eq_false_iff_not]
  intro h
  obtain ⟨-, -, hc, -⟩ := h
  rw [show ((1/20 : ℚ))⁻¹ = 20 from by norm_num, ceil_q_twenty] at hc
  omega

theorem calc_order_one : calc_order ((1 : ℚ) : ℝ) 12 1 = 1 := by
  rw [calc_order]
  have hmin : min (((1 : ℚ) : ℝ)) 1 = 1 := by push_cast; norm_num
  rw [hmin]
  have hpi3 := Real.pi_gt_three
  have hpos : (0 : ℝ) < 2.285 * 1 * Real.pi * 1 := by positivity
  have hc : ⌈((12 : ℝ) - 8) / (2.285 * 1 * Real.pi * 1)⌉ = 1 := by
    rw [Int.ceil_eq_iff]
    constructor
    · push_cast
      have hv : (0 : ℝ) < (12 - 8) / (2.285 * 1 * Real.pi * 1) := by positivity
      linarith
    · push_cast
      rw [div_le_one hpos]
      nlinarith
  rw [hc]
  rfl

/-- `Manager::with_raw_internal` succeeds at ratio 2, `quan = 1`, `order = 2`,
`kaiser_beta = 0`, `cutoff = 0.5`: the latency is `round(2 · 2 · 0.5) = 2`. -/
theorem with_raw_ok_two :
    SincManager.with_raw_internal 2 1 2 0 (1/2) =
      Except.ok ⟨2, 2, 1, 2, generate_filter_table 1 2 0 (1/2)⟩ := by
  have hlat : (roundf64 (((2 : ℚ) : ℝ) * ((2 : Nat) : ℝ) * 0.5)).toNat = 2 := by
    have hx : ((2 : ℚ) : ℝ) * ((2 : Nat) : ℝ) * 0.5 = 2 := by push_cast; norm_num
    rw [hx, roundf64, if_pos (by norm_num : (0 : ℝ) ≤ 2),
      show (2 : ℝ) + 1/2 = 5/2 from by norm_num,
      show ⌊(5/2 : ℝ)⌋ = 2 from by rw [Int.floor_eq_iff] <;> norm_num]
    rfl
  rw [SincManager.with_raw_internal, if_pos supported_ratio_two, if_pos (by norm_num)]
  show Except.ok (⟨2, 2, 1, (roundf64 (((2 : ℚ) : ℝ) * ((2 : Nat) : ℝ) * 0.5)).toNat,
    generate_filter_table 1 2 0 (1/2)⟩ : SincManager) = _
  rw [hlat]

/-- `Manager::with_raw_internal` succeeds at ratio 2, `quan = 1`, `order = 1`,
`kaiser_beta = 0`, `cutoff = 0.5`: the latency is `round(2 · 1 · 0.5) = 1`. -/
theorem with_raw_ok_one :
    SincManager.with_raw_internal 2 1 1 0 (1/2) =
      Except.ok ⟨2, 1, 1, 1, generate_filter_table 1 1 0 (1/2)⟩ := by
  have hlat : (roundf64 (((2 : ℚ) : ℝ) * ((1 : Nat) : ℝ) * 0.5)).toNat = 1 := by
    have hx : ((2 : ℚ) : ℝ) * ((1 : Nat) : ℝ) * 0.5 = 1 := by push_cast; norm_num
    rw [hx, roundf64, if_pos (by norm_num : (0 : ℝ) ≤ 1),
      show (1 : ℝ) + 1/2 = 3/2 from by norm_num,
      show ⌊(3/2 : ℝ)⌋ = 1 from by rw [Int.floor_eq_iff] <;> norm_num]
    rfl
  rw [SincManager.with_raw_internal, if_pos supported_ratio_two, if_pos (by norm_num)]
  show Except.ok (⟨2, 1, 1, (roundf64 (((2 : ℚ) : ℝ) * ((1 : Nat) : ℝ) * 0.5)).toNat,
    generate_filter_table 1 1 0 (1/2)⟩ : SincManager) = _
  rw [hlat]

/-- `Manager::new` succeeds at ratio 1, `atten = 12`, `quan = 1`,
`trans_width = 1`: the derived beta is 0, the derived order is 1(since
`4 / (2.285 π) ≤ 1`), the cutoff is `0.5`, and the latency is
`round(1 · 1 · 0.5) = 1`. -/
theorem sincNew_ok_one :
    SincManager.new 1 12 1 1 =
      Except.ok ⟨1, 1, 1, 1, generate_filter_table 1 1 0 (1/2)⟩ := by
  rw [SincManager.new, SincManager.new_internal, if_pos supported_ratio_one,
    if_pos (by norm_num)]
  show SincManager.with_raw_internal 1 1 (calc_order ((1 : ℚ) : ℝ) 12 1)
      (calc_kaiser_beta 12) (min ((1 : ℚ) : ℝ) 1 * (1 - 0.5 * 1)) = _
  have hbeta : calc_kaiser_beta 12 = 0 := by
    rw [calc_kaiser_beta, if_neg (by norm_num), if_neg (by norm_num)]
  have hcut : min ((1 : ℚ) : ℝ) 1 * (1 - 0.5 * 1) = 1/2 := by push_cast; norm_num
  rw [calc_order_one, hbeta, hcut, SincManager.with_raw_internal,
    if_pos supported_ratio_one, if_pos (by norm_num)]
  show Except.ok (⟨1, 1, 1, (roundf64 (((1 : ℚ) : ℝ) * ((1 : Nat) : ℝ) * 0.5)).toNat,
    generate_filter_table 1 1 0 (1/2)⟩ : SincManager) = _
  have hlat : (roundf64 (((1 : ℚ) : ℝ) * ((1 : Nat) : ℝ) * 0.5)).toNat = 1 := by
    have hx : ((1 : ℚ) : ℝ) * ((1 : Nat) : ℝ) * 0.5 = 1/2 := by push_cast; norm_num
    rw [hx, roundf64, if_pos (by norm_num : (0 : ℝ) ≤ 1/2),
      show (1/2 : ℝ) + 1/2 = 1 from by norm_num, Int.floor_one]
    rfl
  rw [hlat]

section Claims

/-- C2 (amended): for the linear converter built by `linear::Manager::new(2.0)`
and input `[1.0, 2.0, 3.0, 4.0]`, the emitted output samples are exactly
`[0.5, 1.0, 1.5, 2.0, 2.5, 3.0, 3.5]` (the run then suspends): the first
emitted sample is `0.5`, not `1.5` as the claim states, because the first pull
sets `last_in[1] = 1.0` with `last_in[0]` still `0.0` and initial phase
`pos = numer = 1` of `denom = 2`. -/
theorem claim_C2 :
    LinManager.new 2 = .ok ⟨.rational 2⟩ ∧
      LinManager.converter ℚ ⟨.rational 2⟩ =
        .rationalFast ⟨.first, 0, 0, 1, 2, 0, [0, 1/2]⟩ ∧
      (produce linConvStep 8
          (LinConverter.rationalFast (⟨.first, 0, 0, 1, 2, 0, [0, 1/2]⟩ : LinFast ℚ))
          [1, 2, 3, 4]).1 =
        [1/2, 1, 3/2, 2, 5/2, 3, 7/2] := by
  refine ⟨?_, ?_, ?_⟩
  · rw [LinManager.new, LRatio.try_from_float]
    norm_num [LRatio.is_supported, ceil_q_half]
  · rw [LinManager.converter, linConvNew]
    norm_num [linFastNew, coefTable, List.range_succ]
  · norm_num [produce, linConvStep, linFastStep, linFastNormal, linAdvance]

/-- C2 counterexample: the output sequence of the 2× linear upsampler on
`[1.0, 2.0, 3.0, 4.0]` does not begin with `[1.5, 2.0, 2.5, 3.0, 3.5, 4.0]`:
its first element is `0.5`. -/
theorem claim_C2_cex :
    ((produce linConvStep 8
        (LinConverter.rationalFast (⟨.first, 0, 0, 1, 2, 0, [0, 1/2]⟩ : LinFast ℚ))
        [1, 2, 3, 4]).1).take 6 ≠
      [3/2, 2, 5/2, 3, 7/2, 4] := by
  norm_num [produce, linConvStep, linFastStep, linFastNormal, linAdvance]

/-- C3: suspend resumability. For each converter (`RationalFastConverter`,
`RationalConverter`, `FloatConverter`, sinc `Converter`): driving `next_sample`
on a truncated input until it returns `None`, then resuming the saved state
with the remaining samples, emits exactly the same sequence of `Some` outputs
(and reaches the same state) as one uninterrupted run on the full input. -/
theorem claim_C3 {K : Type} [LinearOrderedField K] [FloorRing K] :
    Resumable (linFastStep (K := K)) ∧ Resumable (linRatStep (K := K)) ∧
      Resumable (linFloatStep (K := K)) ∧ Resumable (sincStep (K := K)) :=
  ⟨resumable_of_extend_drain _ linFastStep_extend linFastStep_drain,
   resumable_of_extend_drain _ linRatStep_extend linRatStep_drain,
   resumable_of_extend_drain _ linFloatStep_extend linFloatStep_drain,
   resumable_of_extend_drain _ sincStep_extend sincStep_drain⟩

/-- C3 witness: the 2× linear upsampler driven on the truncated input `[1, 2]`
until `None`, then resumed on `[3, 4]`, reproduces the uninterrupted run on
`[1, 2, 3, 4]`. -/
theorem claim_C3_witness :
    produce linFastStep (3 + 3 + 1)
        (⟨.first, 0, 0, 1, 2, 0, [0, 1/2]⟩ : LinFast ℚ) ([1, 2] ++ [3, 4]) =
      ([1/2, 1, 3/2] ++ [2, 5/2, 3, 7/2],
        ⟨.normal, 3, 4, 1, 2, 2, [0, 1/2]⟩, []) := by
  have h := (claim_C3 (K := ℚ)).1
  exact h 4 3 ⟨.first, 0, 0, 1, 2, 0, [0, 1/2]⟩ [1, 2] [3, 4]
    [1/2, 1, 3/2] ⟨.suspend, 2, 2, 1, 2, 0, [0, 1/2]⟩ [2, 5/2, 3, 7/2]
    ⟨.normal, 3, 4, 1, 2, 2, [0, 1/2]⟩ []
    (by norm_num [produce, linFastStep, linFastNormal, linAdvance])
    (by norm_num [produce, linFastStep, linFastNormal, linAdvance])
    (by norm_num [produce, linFastStep, linFastNormal, linAdvance])

/-- C5 (amended): for every rational-phase converter (`RationalFastConverter`,
`RationalConverter`, sinc `Converter`), the phase at which a `Some`-returning
call read its interpolation coefficient lies in `[0, denom)`; equivalently the
stored phase right after the call lies in `[numer, denom + numer)`. For the
float converter the phase used lies in `[0, 1)` and the stored phase is that
value plus `step`. (The claim's `0 ≤ pos < denom` for the stored phase at the
boundary between calls is false; see the counterexample.) -/
theorem claim_C5 {K : Type} [LinearOrderedField K] [FloorRing K] :
    (∀ (s : LinFast K) (xs : List K) (v : K) (s1 : LinFast K) (r : List K),
      linFastStep s xs = (some v, s1, r) →
        s.numer ≤ s1.pos ∧ s1.pos - s.numer < s1.denom) ∧
    (∀ (s : LinRat K) (xs : List K) (v : K) (s1 : LinRat K) (r : List K),
      linRatStep s xs = (some v, s1, r) →
        s.numer ≤ s1.pos ∧ s1.pos - s.numer < s1.denom) ∧
    (∀ (s : SincConv K) (xs : List K) (v : K) (s1 : SincConv K) (r : List K),
      sincStep s xs = (some v, s1, r) →
        s.numer ≤ s1.pos ∧ s1.pos - s.numer < s1.denom) ∧
    (∀ (s : LinFloat K) (xs : List K) (v : K) (s1 : LinFloat K) (r : List K),
      0 ≤ s.pos → linFloatStep s xs = (some v, s1, r) →
        0 ≤ s1.pos - s.step ∧ s1.pos - s.step < 1) := by
  refine ⟨?_, ?_, ?_, ?_⟩
  · intro s xs v s1 r h
    obtain ⟨_, _, h3, h4⟩ := linFastStep_some_phase h
    exact ⟨h3, h4⟩
  · intro s xs v s1 r h
    obtain ⟨_, _, h3, h4⟩ := linRatStep_some_phase h
    exact ⟨h3, h4⟩
  · intro s xs v s1 r h
    obtain ⟨_, _, h3, h4⟩ := sincStep_some_phase h
    exact ⟨h3, h4⟩
  · intro s xs v s1 r hp h
    obtain ⟨_, h2, h3⟩ := linFloatStep_some_phase hp h
    exact ⟨h2, h3⟩

/-- C5 witness: the first `Some`-returning call of each converter kind at a
concrete ratio satisfies the amended phase bound. -/
theorem claim_C5_witness :
    ((1 : Nat) ≤ 2 ∧ 2 - 1 < 2) ∧ ((1 : Nat) ≤ 2 ∧ 2 - 1 < 2) ∧
      ((3 : Nat) ≤ 3 ∧ 3 - 3 < 5) ∧
      ((0 : ℚ) ≤ 1/2 - 1/2 ∧ (1/2 : ℚ) - 1/2 < 1) := by
  have h := claim_C5 (K := ℚ)
  exact ⟨h.1 ⟨.first, 0, 0, 1, 2, 0, [0, 1/2]⟩ [1, 2] (1/2)
      ⟨.normal, 0, 1, 1, 2, 2, [0, 1/2]⟩ [2]
      (by norm_num [linFastStep, linFastNormal, linAdvance]),
    h.2.1 ⟨.first, 0, 0, 1, 2, 0, (1/2 : ℚ)⟩ [1, 2] (1/2)
      ⟨.normal, 0, 1, 1, 2, 2, 1/2⟩ [2]
      (by norm_num [linRatStep, linRatNormal, linAdvance]),
    h.2.2.1 ⟨3, 5, 0, [0, 1/5, 2/5, 3/5, 4/5], 1, 1, [1/2, 0], [0, 0, 0], .normal⟩ [0, 0] 0
      ⟨3, 5, 3, [0, 1/5, 2/5, 3/5, 4/5], 1, 1, [1/2, 0], [0, 0, 0], .normal⟩ [0, 0]
      (by norm_num [sincStep, sincNormal, sincAdvance, interpolate, interpLoop, accTapD,
        f2u, USIZE]),
    h.2.2.2 ⟨.first, 0, 0, 1/2, 0⟩ [1, 2] 1 ⟨.normal, 1, 2, 1/2, 1/2⟩ []
      (by norm_num)
      (by norm_num [linFloatStep, linFloatNormal, linFloatAdvance])⟩

/-- C5 counterexample: for the 2× linear converter (as minted by
`linear::Manager::new(2.0)`), the stored phase right after the first
`Some`-returning call equals `denom = 2`, so `0 ≤ pos < denom` fails at the
observable boundary between `Some`-returning calls. -/
theorem claim_C5_cex :
    LinManager.converter ℚ ⟨.rational 2⟩ =
        .rationalFast ⟨.first, 0, 0, 1, 2, 0, [0, 1/2]⟩ ∧
      (linFastStep (⟨.first, 0, 0, 1, 2, 0, [0, 1/2]⟩ : LinFast ℚ) [1, 2, 3, 4]).1 =
        some (1/2) ∧
      (linFastStep (⟨.first, 0, 0, 1, 2, 0, [0, 1/2]⟩ : LinFast ℚ) [1, 2, 3, 4]).2.1.pos = 2 ∧
      ¬ ((linFastStep (⟨.first, 0, 0, 1, 2, 0, [0, 1/2]⟩ : LinFast ℚ) [1, 2, 3, 4]).2.1.pos <
          (linFastStep (⟨.first, 0, 0, 1, 2, 0, [0, 1/2]⟩ : LinFast ℚ) [1, 2, 3, 4]).2.1.denom) := by
  refine ⟨?_, ?_, ?_, ?_⟩
  · rw [LinManager.converter, linConvNew]
    norm_num [linFastNew, coefTable, List.range_succ]
  · norm_num [linFastStep, linFastNormal, linAdvance]
  · norm_num [linFastStep, linFastNormal, linAdvance]
  · norm_num [linFastStep, linFastNormal, linAdvance]

/-- C6 (amended): for a sinc converter with rational ratio `p/q` in lowest
terms, the converter's phase modulus is `denom = p` (the reduced numerator of
the ratio, because the converter step is the reciprocal ratio `q/p`), and the
integer phase returns to its starting residue class modulo `p` after `p`
outputs: any run that emits exactly `denom` samples leaves `pos` congruent to
its starting value modulo `denom`. (The claim's `q` outputs / modulo `q`
version is refuted by the counterexample at ratio `5/3`.) -/
theorem claim_C6 {K : Type} [LinearOrderedField K] [FloorRing K]
    (n : Nat) (s : SincConv K) (xs : List K) (outs : List K) (s1 : SincConv K)
    (r : List K) (h : produce sincStep n s xs = (outs, s1, r))
    (hlen : outs.length = s.denom) :
    s1.pos % s.denom = s.pos % s.denom := by
  obtain ⟨_, _, hp⟩ := produce_sinc_phase n s xs h
  rw [hp, hlen, Nat.add_mul_mod_self_left]

/-- C6 witness: the sinc converter at ratio `5/3` (step `3/5`, so `denom = 5`),
run for exactly 5 outputs, returns to its starting phase residue modulo 5. -/
theorem claim_C6_witness : (5 : Nat) % 5 = 0 % 5 := by
  have h := claim_C6 (K := ℚ) 5
    ⟨3, 5, 0, [0, 1/5, 2/5, 3/5, 4/5], 1, 1, [1/2, 0], [0, 0, 0], .normal⟩ [0, 0, 0, 0, 0]
    [0, 0, 0, 0, 0] ⟨3, 5, 5, [0, 1/5, 2/5, 3/5, 4/5], 1, 1, [1/2, 0], [0, 0, 0], .normal⟩
    [0, 0, 0]
    (by norm_num [produce, sincStep, sincNormal, sincAdvance, interpolate, interpLoop,
      accTapD, f2u, USIZE])
    (by norm_num)
  exact h

set_option maxHeartbeats 1000000 in
/-- C6 counterexample: for the sinc converter at rational ratio `5/3` (`p = 5`,
`q = 3`; the converter step is `3/5`, so `numer = 3`, `denom = 5`), after
`q = 3` calls that returned `Some` the phase is `4`, which is not congruent to
the starting phase `0` modulo `q = 3`. -/
theorem claim_C6_cex :
    (⟨3, 5, 0, [0, 1/5, 2/5, 3/5, 4/5], 1, 1, [1/2, 0], [0, 0, 0],
        .normal⟩ : SincConv ℚ).pos = 0 ∧
      ((produce sincStep 3 (⟨3, 5, 0, [0, 1/5, 2/5, 3/5, 4/5], 1, 1, [1/2, 0], [0, 0, 0],
          .normal⟩ : SincConv ℚ) [0, 0, 0, 0, 0]).1).length = 3 ∧
      (produce sincStep 3 (⟨3, 5, 0, [0, 1/5, 2/5, 3/5, 4/5], 1, 1, [1/2, 0], [0, 0, 0],
          .normal⟩ : SincConv ℚ) [0, 0, 0, 0, 0]).2.1.pos = 4 ∧
      ¬ ((produce sincStep 3 (⟨3, 5, 0, [0, 1/5, 2/5, 3/5, 4/5], 1, 1, [1/2, 0], [0, 0, 0],
          .normal⟩ : SincConv ℚ) [0, 0, 0, 0, 0]).2.1.pos % 3 =
        (⟨3, 5, 0, [0, 1/5, 2/5, 3/5, 4/5], 1, 1, [1/2, 0], [0, 0, 0],
          .normal⟩ : SincConv ℚ).pos % 3) := by
  refine ⟨rfl, ?_, ?_, ?_⟩ <;>
    norm_num [produce, sincStep, sincNormal, sincAdvance, interpolate, interpLoop,
      accTapD, f2u, USIZE]

/-- C1 (amended): whenever `sinc::Manager::new(ratio, atten, quan, trans_width)`
succeeds, the resulting Manager's `latency` equals
`round(ratio * order * 0.5)` (cast to `usize`) where `order` is the Manager's
derived filter order. The claim's further assertion that `new` succeeds on
every supported tuple is false: see the counterexample, where a supported
tuple drives the derived order above the validated bound 2048. -/
theorem claim_C1 {ratio : ℚ} {atten : ℝ} {quan : Nat} {trans_width : ℝ}
    {m : SincManager}
    (h : SincManager.new ratio atten quan trans_width = .ok m) :
    m.latency = (roundf64 ((m.ratio : ℝ) * (m.order : ℝ) * 0.5)).toNat := by
  rw [SincManager.new, SincManager.new_internal] at h
  by_cases h1 : supported_ratio ratio = true
  · rw [if_pos h1] at h
    by_cases h2 : 12 ≤ atten ∧ atten ≤ 180 ∧ 1 ≤ quan ∧ quan ≤ 16384 ∧
        0.01 ≤ trans_width ∧ trans_width ≤ 1
    · rw [if_pos h2] at h
      have h' : SincManager.with_raw_internal ratio quan
          (calc_order (ratio : ℝ) atten trans_width) (calc_kaiser_beta atten)
          (min (ratio : ℝ) 1 * (1 - 0.5 * trans_width)) = .ok m := h
      obtain ⟨hr, ho, -, -, hl, -⟩ := with_raw_internal_ok h'
      rw [hl, hr, ho]
    · rw [if_neg h2] at h
      exact absurd h (by simp)
  · rw [if_neg h1] at h
    exact absurd h (by simp)

/-- C1 witness: `Manager::new(1, 12, 1, 1)` succeeds with order 1 and its
latency 1 equals `round(1 · 1 · 0.5) = round(0.5) = 1`. -/
theorem claim_C1_witness :
    SincManager.new 1 12 1 1 =
        Except.ok ⟨1, 1, 1, 1, generate_filter_table 1 1 0 (1/2)⟩ ∧
      (⟨1, 1, 1, 1, generate_filter_table 1 1 0 (1/2)⟩ : SincManager).latency =
        (roundf64
          (((⟨1, 1, 1, 1, generate_filter_table 1 1 0 (1/2)⟩ : SincManager).ratio : ℝ) *
            ((⟨1, 1, 1, 1, generate_filter_table 1 1 0 (1/2)⟩ : SincManager).order : ℝ) *
            0.5)).toNat :=
  ⟨sincNew_ok_one, claim_C1 sincNew_ok_one⟩

/-- C1 counterexample: the tuple `(ratio = 2, atten = 180, quan = 1,
trans_width = 0.01)` is supported (the ratio passes `supported_ratio` and every
parameter is inside `new`'s validated range), yet `Manager::new` fails with
`InvalidParam`, because the derived order `⌈172 / (2.285 · 0.01 · π)⌉` exceeds
2048. -/
theorem claim_C1_cex :
    supported_ratio 2 = true ∧
      SincManager.new 2 180 1 0.01 = .error .invalidParam := by
  refine ⟨supported_ratio_two, ?_⟩
  rw [SincManager.new, SincManager.new_internal, if_pos supported_ratio_two,
    if_pos (by norm_num)]
  show SincManager.with_raw_internal 2 1 (calc_order ((2 : ℚ) : ℝ) 180 0.01)
      (calc_kaiser_beta 180) (min ((2 : ℚ) : ℝ) 1 * (1 - 0.5 * 0.01)) = _
  have hg : ¬ (1 ≤ (1 : Nat) ∧ (1 : Nat) ≤ 16384 ∧
      1 ≤ calc_order ((2 : ℚ) : ℝ) 180 0.01 ∧
      calc_order ((2 : ℚ) : ℝ) 180 0.01 ≤ 2048 ∧
      (0 : ℝ) ≤ calc_kaiser_beta 180 ∧ calc_kaiser_beta 180 ≤ 20 ∧
      (0.01 : ℝ) ≤ min ((2 : ℚ) : ℝ) 1 * (1 - 0.5 * 0.01) ∧
      min ((2 : ℚ) : ℝ) 1 * (1 - 0.5 * 0.01) ≤ 1) := by
    intro hcon
    have h1 := hcon.2.2.2.1
    have h2 := calc_order_cex
    omega
  rw [SincManager.with_raw_internal, if_pos supported_ratio_two, if_neg hg]

/-- C4 (amended): for every parameter tuple accepted by
`Manager::with_raw_internal`, the generated filter table has length
`⌊order · quan / 2⌋ + 1` and its final element is `0.0`; its element at index
0 equals `cutoff` provided `⌊order · quan / 2⌋ ≥ 1`. (When
`⌊order · quan / 2⌋ = 0` — e.g. `order = quan = 1` — the table is `[0.0]` and
index 0 holds `0.0`, not `cutoff`; see the counterexample.) -/
theorem claim_C4 {ratio : ℚ} {quan order : Nat} {beta cutoff : ℝ}
    {m : SincManager}
    (h : SincManager.with_raw_internal ratio quan order beta cutoff = .ok m) :
    m.filter.length = order * quan / 2 + 1 ∧
      m.filter.getLast? = some 0 ∧
      (1 ≤ order * quan / 2 → m.filter.getD 0 0 = cutoff) := by
  obtain ⟨-, -, -, hfil, -⟩ := with_raw_internal_ok h
  refine ⟨?_, ?_, ?_⟩
  · rw [hfil, generate_filter_table_length]
  · rw [hfil]
    exact generate_filter_table_last quan order beta cutoff
  · intro hlen
    rw [hfil]
    exact generate_filter_table_head quan order beta cutoff hlen

/-- C4 witness: at ratio 2, `quan = 1`, `order = 2`, `beta = 0`,
`cutoff = 0.5` the constructor succeeds and the table has length
`⌊2 · 1 / 2⌋ + 1 = 2`, head `0.5 = cutoff` and last element `0.0`. -/
theorem claim_C4_witness :
    (⟨2, 2, 1, 2, generate_filter_table 1 2 0 (1/2)⟩ : SincManager).filter.length =
        2 * 1 / 2 + 1 ∧
      (⟨2, 2, 1, 2, generate_filter_table 1 2 0 (1/2)⟩ :
          SincManager).filter.getLast? = some 0 ∧
      (1 ≤ 2 * 1 / 2 →
        (⟨2, 2, 1, 2, generate_filter_table 1 2 0 (1/2)⟩ :
            SincManager).filter.getD 0 0 = (1/2 : ℝ)) :=
  claim_C4 with_raw_ok_two

/-- C4 counterexample: `with_raw_internal` accepts `quan = 1`, `order = 1`
(with `beta = 0`, `cutoff = 0.5`), and the resulting filter table is the
single element `[0.0]`, whose element at index 0 is `0.0`, not
`cutoff = 0.5`. -/
theorem claim_C4_cex :
    SincManager.with_raw_internal 2 1 1 0 (1/2) =
        Except.ok ⟨2, 1, 1, 1, generate_filter_table 1 1 0 (1/2)⟩ ∧
      generate_filter_table 1 1 0 (1/2) = [0] ∧
      ¬ ((generate_filter_table 1 1 0 (1/2)).getD 0 0 = (1/2 : ℝ)) := by
  refine ⟨with_raw_ok_one, ?_, ?_⟩
  · simp [generate_filter_table]
  · simp [generate_filter_table]

/-- C7: `sinc::Manager::new(17, 120, 32, 0.1)` fails with `UnsupportedRatio`
(since `⌈17⌉ > 16`); `sinc::Manager::new(0.05, 120, 32, 0.1)` fails with
`UnsupportedRatio` (since `⌈1 / 0.05⌉ = 20 > 16`); and
`sinc::Manager::new(2, 11.9, 32, 0.1)` fails with `InvalidParam` (since
`atten = 11.9 < 12`). -/
theorem claim_C7 :
    SincManager.new 17 120 32 (1/10) = .error .unsupportedRatio ∧
      SincManager.new (1/20) 120 32 (1/10) = .error .unsupportedRatio ∧
      SincManager.new 2 11.9 32 (1/10) = .error .invalidParam := by
  refine ⟨?_, ?_, ?_⟩
  · rw [SincManager.new, SincManager.new_internal]
    simp [supported_ratio_seventeen]
  · have hns : ¬ (supported_ratio ((1 : ℚ)/20) = true) := by
      rw [supported_ratio_inv_twenty]
      exact Bool.false_ne_true
    rw [SincManager.new, SincManager.new_internal, if_neg hns]
  · have hg : ¬ ((12 : ℝ) ≤ 11.9 ∧ (11.9 : ℝ) ≤ 180 ∧ 1 ≤ (32 : Nat) ∧
        (32 : Nat) ≤ 16384 ∧ (0.01 : ℝ) ≤ 1/10 ∧ (1/10 : ℝ) ≤ 1) := by
      intro hcon
      have h1 := hcon.1
      norm_num at h1
    rw [SincManager.new, SincManager.new_internal, if_pos supported_ratio_two,
      if_neg hg]

/-- C8: for every nonnegative `x`, `bessel_i0 x` equals the truncated power
series for the modified Bessel function `I₀` with closed-form terms
`((x/2)^k / k!)²`, adding terms until one drops below `1e-10`, capped at 32
terms. -/
theorem claim_C8 {K : Type} [LinearOrderedField K] (x : K) (h : 0 ≤ x) :
    bessel_i0 x = besselI0Spec x :=
  bessel_i0_eq_spec_of_nonneg x h

/-- C8 witness: the series equality holds at the concrete nonnegative input
`x = 1` over `ℚ`. -/
theorem claim_C8_witness : (0 : ℚ) ≤ 1 ∧ bessel_i0 (1 : ℚ) = besselI0Spec 1 :=
  ⟨by norm_num, claim_C8 1 (by norm_num)⟩

/-- C9: for every sinc converter minted from a successfully constructed
Manager, driving any number of `next_sample` calls on any input through the
checked interpreter — in which every `coefs`, `filter` and `buf` access is a
bounds-checked lookup that fails (`none`) exactly where the Rust indexing
would panic — never fails, and agrees with the unchecked run: `next_sample`
never indexes out of bounds. -/
theorem claim_C9 {ratio : ℚ} {quan order : Nat} {beta cutoff : ℝ}
    {m : SincManager}
    (h : SincManager.with_raw_internal ratio quan order beta cutoff = .ok m)
    (n : Nat) (xs : List ℝ) :
    produceChecked sincStepChecked n (m.converter) xs =
      some (produce sincStep n (m.converter) xs) :=
  produceChecked_sinc_eq n (m.converter) xs (sincManager_converter_WF h)

/-- C9 witness: two checked calls on the converter of the concrete Manager
built at ratio 2, `quan = 1`, `order = 2` succeed on input `[0]`. -/
theorem claim_C9_witness :
    produceChecked sincStepChecked 2
        ((⟨2, 2, 1, 2, generate_filter_table 1 2 0 (1/2)⟩ : SincManager).converter)
        [0] =
      some (produce sincStep 2
        ((⟨2, 2, 1, 2, generate_filter_table 1 2 0 (1/2)⟩ : SincManager).converter)
        [0]) :=
  claim_C9 with_raw_ok_two 2 [0]

/-- C10: for every sinc converter freshly minted from a successfully
constructed Manager, the first `next_sample` call returns `Some 0` and
consumes no input: the phase starts at `0 < denom`, so the advance loop pulls
nothing, and the all-zero ring buffer interpolates to exactly `0`. -/
theorem claim_C10 {ratio : ℚ} {quan order : Nat} {beta cutoff : ℝ}
    {m : SincManager}
    (h : SincManager.with_raw_internal ratio quan order beta cutoff = .ok m)
    (xs : List ℝ) :
    sincStep (m.converter) xs =
      (some 0, { m.converter with pos := ((m.ratio)⁻¹).num.toNat }, xs) := by
  rw [SincManager.converter]
  exact sincConvNew_first_call (m.ratio)⁻¹ m.order m.quan m.filter xs

/-- C10 witness: the first call on the converter of the concrete Manager built
at ratio 2, `quan = 1`, `order = 2` returns `Some 0` and leaves the input
`[42]` untouched. -/
theorem claim_C10_witness :
    sincStep
        ((⟨2, 2, 1, 2, generate_filter_table 1 2 0 (1/2)⟩ : SincManager).converter)
        [42] =
      (some 0,
        { (⟨2, 2, 1, 2, generate_filter_table 1 2 0 (1/2)⟩ :
              SincManager).converter with
          pos := (((⟨2, 2, 1, 2, generate_filter_table 1 2 0 (1/2)⟩ :
              SincManager).ratio)⁻¹).num.toNat },
        [42]) :=
  claim_C10 with_raw_ok_two [42]

end Claims

end SimpleSrc
